import Mathlib

/-!
Verification development for the raze renderer.

The Rust sources are embedded shallowly over exact rational arithmetic:
f64 values become `ℚ`, machine integers become `Nat` with explicit
wrap-around where the code can overflow, and fallible operations return
`Option`.  Where the Rust code calls `f64::sqrt` the embedding takes the
square root as an explicit oracle argument `sq : ℚ → ℚ`; theorems that
depend on it carry the hypothesis that `sq` behaves as a square root at
the points where it is consulted.
-/

namespace Raze

/-- Modelled from the spec: the shared small geometric tolerance constant
EPSILON.  It is declared in the crate root, which is not among the source
files; the spec calls it "one shared small tolerance constant", and the
older renderer variant in main.rs uses literal 1e-5, so that value is
used here. -/
def EPSILON : ℚ := 1 / 100000

/-- Embeds struct Vec3 (math.rs): three f64 components. -/
@[ext]
structure Vec3 where
  x : ℚ
  y : ℚ
  z : ℚ
deriving DecidableEq, Repr

namespace Vec3

/-- Vec3::ZERO. -/
def ZERO : Vec3 := ⟨0, 0, 0⟩

/-- Vec3::scale: componentwise scaling; also Mul<f64> and f64 * Vec3. -/
def scale (v : Vec3) (c : ℚ) : Vec3 := ⟨v.x * c, v.y * c, v.z * c⟩

instance : SMul ℚ Vec3 := ⟨fun c v => v.scale c⟩

theorem smul_def (c : ℚ) (v : Vec3) : c • v = ⟨v.x * c, v.y * c, v.z * c⟩ := rfl

/-- Vec3::add (the Add impl in math.rs). -/
instance : Add Vec3 := ⟨fun a b => ⟨a.x + b.x, a.y + b.y, a.z + b.z⟩⟩

theorem add_def (a b : Vec3) : a + b = ⟨a.x + b.x, a.y + b.y, a.z + b.z⟩ := rfl

/-- Vec3::neg (math.rs): -1. * self. -/
instance : Neg Vec3 := ⟨fun v => v.scale (-1)⟩

theorem neg_def (v : Vec3) : -v = ⟨v.x * -1, v.y * -1, v.z * -1⟩ := rfl

/-- Vec3::sub (math.rs): self + -rhs. -/
instance : Sub Vec3 := ⟨fun a b => a + -b⟩

theorem sub_def (a b : Vec3) : a - b = ⟨a.x + b.x * -1, a.y + b.y * -1, a.z + b.z * -1⟩ := rfl

/-- Vec3::dot (math.rs). -/
def dot (a b : Vec3) : ℚ := a.x * b.x + a.y * b.y + a.z * b.z

/-- Vec3::cross (math.rs). -/
def cross (a b : Vec3) : Vec3 :=
  ⟨a.y * b.z - a.z * b.y, a.z * b.x - a.x * b.z, a.x * b.y - a.y * b.x⟩

/-- Vec3::squared_magnitude (math.rs): self.dot(self). -/
def squared_magnitude (v : Vec3) : ℚ := v.dot v

/-- Vec3::magnitude (math.rs): sqrt of the squared magnitude, with the
square root supplied as the oracle `sq`. -/
def magnitude (sq : ℚ → ℚ) (v : Vec3) : ℚ := sq v.squared_magnitude

/-- Vec3::normalize (math.rs): self.magnitude().recip() * self. -/
def normalize (sq : ℚ → ℚ) (v : Vec3) : Vec3 := (magnitude sq v)⁻¹ • v

/-- Vec3::project_onto (math.rs). -/
def project_onto (v dir : Vec3) : Vec3 := (v.dot dir / dir.dot dir) • dir

end Vec3

/-- Embeds struct Color (img.rs): a wrapper around Vec3. -/
@[ext]
structure Color where
  vec : Vec3
deriving DecidableEq, Repr

namespace Color

/-- Color::from_rgb. -/
def from_rgb (r g b : ℚ) : Color := ⟨⟨r, g, b⟩⟩

/-- Color::BLACK. -/
def BLACK : Color := from_rgb 0 0 0

/-- Color::gray. -/
def gray (brightness : ℚ) : Color := from_rgb brightness brightness brightness

end Color

/-- Embeds struct Ray (math.rs): origin and direction. -/
@[ext]
structure Ray where
  start : Vec3
  dir : Vec3
deriving DecidableEq, Repr

namespace Ray

/-- Ray::point_at (math.rs): start + dir * scale. -/
def point_at (r : Ray) (scale : ℚ) : Vec3 := r.start + scale • r.dir

/-- Ray::translate (math.rs): advance the origin, keep the direction. -/
def translate (r : Ray) (scale : ℚ) : Ray := ⟨r.point_at scale, r.dir⟩

/-- Ray::new_unit (math.rs): normalize the direction (sqrt oracle `sq`). -/
def new_unit (sq : ℚ → ℚ) (start dir : Vec3) : Ray := ⟨start, dir.normalize sq⟩

end Ray

/-- Modelled from the spec: struct DiffuseColorMaterial is declared in a
module absent from the source files; shapes.rs constructs it as
DiffuseColorMaterial::new(normal, color) and the spec says a material
combines a diffuse base color with the surface normal, so it is a record
of those two fields. -/
@[ext]
structure DiffuseColorMaterial where
  normal : Vec3
  color : Color
deriving DecidableEq, Repr

/-- Embeds struct Collision (shapes.rs): hit distance plus material. -/
@[ext]
structure Collision where
  distance : ℚ
  material : DiffuseColorMaterial
deriving DecidableEq, Repr

/-- Embeds struct RayCollision (shapes.rs): keeps the originating ray. -/
@[ext]
structure RayCollision where
  ray : Ray
  collision : Collision
deriving DecidableEq, Repr

/-- RayCollision::collision_point (shapes.rs); the scene.rs variant calls
it position(). -/
def RayCollision.collision_point (rc : RayCollision) : Vec3 :=
  rc.ray.point_at rc.collision.distance

/-- RayCollision::reflection (shapes.rs): material.update_ray on the ray
translated to the hit point.  ColorMaterial::update_ray (material.rs)
replaces the direction with reflector.reflect(dir, normal), which draws
from a thread-local PRNG; that draw is abstracted as the function
argument reflectFn. -/
def RayCollision.reflection (reflectFn : Vec3 → Vec3 → Vec3) (rc : RayCollision) : Ray :=
  let moved := rc.ray.translate rc.collision.distance
  ⟨moved.start, reflectFn moved.dir rc.collision.material.normal⟩

/-- Embeds struct Sphere (shapes.rs). -/
structure Sphere where
  center : Vec3
  radius : ℚ
  color : Color

namespace Sphere

/-- Sphere::intersect_equation (shapes.rs). -/
def intersect_equation (s : Sphere) (ray : Ray) : Vec3 × ℚ × ℚ :=
  let relative_center := s.center - ray.start
  let cx := relative_center.dot ray.dir
  let cc := relative_center.dot relative_center
  let xx := ray.dir.dot ray.dir
  let rr := s.radius * s.radius
  (relative_center, cx, cx * cx - xx * (cc - rr))

/-- Sphere::ray_intersection (shapes.rs).  root.is_sign_negative()
becomes root < 0 in exact arithmetic; root.sqrt() is the oracle `sq`. -/
def ray_intersection (sq : ℚ → ℚ) (s : Sphere) (ray : Ray) (include_start : Bool) :
    Option Collision :=
  let eqn := s.intersect_equation ray
  let relative_center := eqn.1
  let cx := eqn.2.1
  let root := eqn.2.2
  if root < 0 then none
  else
    let l := cx - sq root
    if include_start = false ∧ l < EPSILON then none
    else some ⟨l, ⟨s.radius⁻¹ • (l • ray.dir - relative_center), s.color⟩⟩

end Sphere

/-- Embeds struct InvertedSphere (shapes.rs): a newtype around Sphere. -/
structure InvertedSphere where
  sphere : Sphere

/-- InvertedSphere::ray_intersection (shapes.rs): same quadratic, the
farther root cx + sqrt(root), negated normal. -/
def InvertedSphere.ray_intersection (sq : ℚ → ℚ) (s : InvertedSphere) (ray : Ray)
    (include_start : Bool) : Option Collision :=
  let eqn := s.sphere.intersect_equation ray
  let relative_center := eqn.1
  let cx := eqn.2.1
  let root := eqn.2.2
  if root < 0 then none
  else
    let l := cx + sq root
    if include_start = false ∧ l < EPSILON then none
    else some ⟨l, ⟨s.sphere.radius⁻¹ • (-(l • ray.dir - relative_center)), s.sphere.color⟩⟩

/-- One step of the fold behind Iterator::min_by with Collision::cmp
(total_cmp on distance): the accumulator survives ties. -/
def min_by_step (acc : Option Collision) (c : Collision) : Option Collision :=
  match acc with
  | none => some c
  | some a => if c.distance < a.distance then some c else some a

/-- Iterator::min_by with Collision::cmp: keeps the first of equally
minimal elements. -/
def min_by_distance (l : List Collision) : Option Collision :=
  l.foldl min_by_step none

/-- Embeds impl Shape for [T] (shapes.rs): intersect every member,
ignore the Nones, take the minimum by distance.  A member shape is its
ray_intersection function. -/
def slice_ray_intersection (shapes : List (Ray → Bool → Option Collision)) (ray : Ray)
    (include_start : Bool) : Option Collision :=
  min_by_distance (shapes.filterMap fun shape => shape ray include_start)

/-- Shape::intersect_inclusive (shapes.rs) for an abstract shape given by
its ray_intersection function. -/
def intersect_inclusive (world : Ray → Bool → Option Collision) (ray : Ray) :
    Option RayCollision :=
  (world ray true).map fun collision => ⟨ray, collision⟩

/-- Shape::intersect_exclusive (shapes.rs). -/
def intersect_exclusive (world : Ray → Bool → Option Collision) (ray : Ray) :
    Option RayCollision :=
  (world ray false).map fun collision => ⟨ray, collision⟩

/-- Option::is_some_and. -/
def is_some_and {α : Type} (o : Option α) (p : α → Bool) : Bool :=
  match o with
  | none => false
  | some a => p a

/-- Embeds struct Scene (scene.rs) restricted to the fields the verified
operations read: the light position and the world shape, the latter as
its ray_intersection function (Scene is generic over S: Shape). -/
structure Scene where
  light_pos : Vec3
  world : Ray → Bool → Option Collision

namespace Scene

/-- Scene::brightness (scene.rs). -/
def brightness (sq : ℚ → ℚ) (sc : Scene) (ray : Ray) : ℚ :=
  let light_relative := sc.light_pos - ray.start
  let to_light_ray_dist := light_relative.normalize sq
  max (ray.dir.dot to_light_ray_dist) 0

/-- Scene::sees_light (scene.rs): cast an inclusive ray toward the light
and report visibility unless a hit lands closer than the light
(squared-distance comparison against EPSILON). -/
def sees_light (sq : ℚ → ℚ) (sc : Scene) (pos : Vec3) : Bool :=
  let light_relative := sc.light_pos - pos
  let to_light_ray := Ray.new_unit sq pos light_relative
  ! is_some_and (intersect_inclusive sc.world to_light_ray) fun collision =>
      decide (collision.collision.distance ^ 2 - light_relative.squared_magnitude < EPSILON)

/-- f64::powi with exponent -2. -/
def powi_neg2 (x : ℚ) : ℚ := (x * x)⁻¹

/-- Scene::cast_ray (scene.rs).  The &mut Reflector PRNG is abstracted
as a state σ with its random_diffuse draw; the extra thread-local draw
made by RayCollision::reflection in the terminal case is the stateless
reflectFn.  Recursion is structural on the bounce budget. -/
def cast_ray {σ : Type} (sq : ℚ → ℚ) (sc : Scene) (random_diffuse : σ → Vec3 → Vec3 × σ)
    (reflectFn : Vec3 → Vec3 → Vec3) : Nat → σ → Ray → Color
  | bounces, rand, ray =>
    match intersect_exclusive sc.world ray with
    | none => Color.BLACK
    | some collision =>
      match bounces with
      | b + 1 =>
        let drawn := random_diffuse rand collision.collision.material.normal
        cast_ray sq sc random_diffuse reflectFn b drawn.2 ⟨collision.collision_point, drawn.1⟩
      | 0 =>
        Color.gray (sc.brightness sq (collision.reflection reflectFn)
          * (if sc.sees_light sq collision.collision_point then 1 else 0)
          * powi_neg2 (Vec3.magnitude sq (collision.collision_point - sc.light_pos)))

/-- Instrumentation for cast_ray: the same control flow, returning the
number of recursive calls actually made instead of a color. -/
def cast_ray_depth {σ : Type} (sc : Scene) (random_diffuse : σ → Vec3 → Vec3 × σ) :
    Nat → σ → Ray → Nat
  | bounces, rand, ray =>
    match intersect_exclusive sc.world ray with
    | none => 0
    | some collision =>
      match bounces with
      | b + 1 =>
        let drawn := random_diffuse rand collision.collision.material.normal
        1 + cast_ray_depth sc random_diffuse b drawn.2 ⟨collision.collision_point, drawn.1⟩
      | 0 => 0

end Scene

/-- Lcg::advance_state (rand.rs): Wrapping u64 multiply-add (mod 2^64)
followed by % Wrapping(2u64 << 48); note 2u64 << 48 is 2 * 2^48 = 2^49. -/
def lcg_advance_state (state : Nat) : Nat :=
  ((state * 0x5DEECE66D + 11) % 2 ^ 64) % (2 * 2 ^ 48)

/-- Lcg::next (rand.rs): advance the state, return (state >> 16) as u32
together with the new state. -/
def lcg_next (state : Nat) : Nat × Nat :=
  let s := lcg_advance_state state
  (s / 2 ^ 16 % 2 ^ 32, s)

/-- Embeds uniform_relfection (material.rs) with the unit-sphere sample
produced by rand::random_unit abstracted as the argument `unit`: flip the
sample when its dot product with the normal is sign-negative. -/
def uniform_relfection (unit normal : Vec3) : Vec3 :=
  if unit.dot normal < 0 then -unit else unit

/-- Embeds Lambertian::reflect (material.rs): add the normal to the
hemisphere-flipped sample and renormalize (sqrt oracle `sq`). -/
def lambertian_reflect (sq : ℚ → ℚ) (unit normal : Vec3) : Vec3 :=
  (uniform_relfection unit normal + normal).normalize sq

/-- Modelled from the spec, for comparison with lambertian_reflect: the
claim reads Lambertian::reflect as normalize(u + n) with u the raw
sphere sample before any hemisphere flip. -/
def lambertian_reflect_claimed (sq : ℚ → ℚ) (unit normal : Vec3) : Vec3 :=
  (unit + normal).normalize sq

/-- Embeds struct Image (img.rs and img/image.rs, identical there): a
row-major color buffer. -/
structure Image where
  width : Nat
  height : Nat
  data : List Color

/-- Image::at (img.rs): data[y * width + x].  Out-of-range indexing
panics in Rust; here it returns none. -/
def Image.at (img : Image) (x y : Nat) : Option Color :=
  img.data[y * img.width + x]?

/-- Writing through Image::at_mut (img.rs): the slot is
data[(height - y - 1) * width + x]. -/
def Image.write_at (img : Image) (x y : Nat) (c : Color) : Image :=
  { img with data := img.data.set ((img.height - y - 1) * img.width + x) c }

/-- Embeds struct Display (scene.rs). -/
structure Display where
  x : Nat
  y : Nat
deriving DecidableEq, Repr

/-- Embeds struct DisplayIter (scene.rs). -/
structure DisplayIter where
  display : Display
  x_start : Nat
  x_end : Nat
  y_start : Nat
  y_end : Nat
deriving DecidableEq, Repr

/-- DisplayIter::new (scene.rs); display.x - 1 and display.y - 1 are u32
subtractions, defined for the claimed widths and heights ≥ 1. -/
def DisplayIter.new (d : Display) : DisplayIter :=
  ⟨d, 0, d.x - 1, 0, d.y - 1⟩

/-- The tail of DisplayIter::next after the x_start wrap-around fix-up:
the y_start > y_end check and the emission of (x_start, y_start) with
x_start incremented. -/
def DisplayIter.emit (it : DisplayIter) : Option ((Nat × Nat) × DisplayIter) :=
  if it.y_end < it.y_start then none
  else some ((it.x_start, it.y_start), { it with x_start := it.x_start + 1 })

/-- DisplayIter::next (scene.rs), as a state-passing step function. -/
def DisplayIter.next (it : DisplayIter) : Option ((Nat × Nat) × DisplayIter) :=
  if it.y_start = it.y_end ∧ it.x_end < it.x_start then none
  else
    DisplayIter.emit
      (if it.display.x ≤ it.x_start then
        { it with x_start := 0, y_start := it.y_start + 1 }
      else it)

/-- Runs DisplayIter::next repeatedly, collecting the emitted pixels;
fuel bounds the number of steps. -/
def display_iter_list : Nat → DisplayIter → List (Nat × Nat)
  | 0, _ => []
  | fuel + 1, it =>
    match it.next with
    | none => []
    | some (p, it2) => p :: display_iter_list fuel it2

/-- Every pixel a Display's IntoIterator yields: W*H items need at most
W*H + 1 calls to next. -/
def display_list (d : Display) : List (Nat × Nat) :=
  display_iter_list (d.x * d.y + 1) (DisplayIter.new d)

/-- ChunkIter::next (utils.rs) iterated: while the underlying iterator
has an element, collect the next chunk_size items as one chunk.  fuel
bounds the number of chunks. -/
def chunk_iter_list {α : Type} : Nat → Nat → List α → List (List α)
  | 0, _, _ => []
  | fuel + 1, chunk_size, l =>
    if l.isEmpty then []
    else l.take chunk_size :: chunk_iter_list fuel chunk_size (l.drop chunk_size)

/-- The full chunk sequence of ChunkIter over a (finite) iterator: at
most length-many chunks exist once chunk_size ≥ 1. -/
def chunk_list {α : Type} (chunk_size : Nat) (l : List α) : List (List α) :=
  chunk_iter_list l.length chunk_size l

/-- The pixel coordinates of a W×H display, row-major. -/
def all_pixels (w h : Nat) : List (Nat × Nat) :=
  (List.range h).flatMap fun y => (List.range w).map fun x => (x, y)

/-- The tail of row y of a width-w display from column xs on. -/
def row_from (w xs y : Nat) : List (Nat × Nat) :=
  (List.range' xs (w - xs)).map fun x => (x, y)

/-- cnt full rows of a width-w display starting at row y0. -/
def rows_from (w : Nat) : Nat → Nat → List (Nat × Nat)
  | _, 0 => []
  | y0, cnt + 1 => ((List.range w).map fun x => (x, y0)) ++ rows_from w (y0 + 1) cnt

/-- Embeds struct Mat3x3 (math.rs): three rows. -/
@[ext]
structure Mat3x3 where
  row1 : Vec3
  row2 : Vec3
  row3 : Vec3
deriving DecidableEq, Repr

namespace Mat3x3

/-- Mat3x3::from_col_vectors (math.rs). -/
def from_col_vectors (c1 c2 c3 : Vec3) : Mat3x3 :=
  ⟨⟨c1.x, c2.x, c3.x⟩, ⟨c1.y, c2.y, c3.y⟩, ⟨c1.z, c2.z, c3.z⟩⟩

/-- Mat3x3::identity (math.rs). -/
def identity : Mat3x3 := from_col_vectors ⟨1, 0, 0⟩ ⟨0, 1, 0⟩ ⟨0, 0, 1⟩

/-- Mat3x3::transpose (math.rs). -/
def transpose (m : Mat3x3) : Mat3x3 := from_col_vectors m.row1 m.row2 m.row3

/-- Matrix product, as MulAssign for &Mat3x3 (math.rs) computes it: entry
(i, j) is row i of the left factor dotted with column j (row j of the
transpose) of the right factor. -/
def matMul (a b : Mat3x3) : Mat3x3 :=
  let bt := b.transpose
  ⟨⟨a.row1.dot bt.row1, a.row1.dot bt.row2, a.row1.dot bt.row3⟩,
   ⟨a.row2.dot bt.row1, a.row2.dot bt.row2, a.row2.dot bt.row3⟩,
   ⟨a.row3.dot bt.row1, a.row3.dot bt.row2, a.row3.dot bt.row3⟩⟩

/-- std::mem::swap of row1 and row2 in Mat3x3::inverse. -/
def swap12 (m : Mat3x3) : Mat3x3 := ⟨m.row2, m.row1, m.row3⟩

/-- std::mem::swap of row1 and row3 in Mat3x3::inverse. -/
def swap13 (m : Mat3x3) : Mat3x3 := ⟨m.row3, m.row2, m.row1⟩

/-- std::mem::swap of row2 and row3 in Mat3x3::inverse. -/
def swap23 (m : Mat3x3) : Mat3x3 := ⟨m.row1, m.row3, m.row2⟩

/-- self[0] *= c in Mat3x3::inverse. -/
def scaleRow1 (c : ℚ) (m : Mat3x3) : Mat3x3 := ⟨c • m.row1, m.row2, m.row3⟩

/-- self[1] *= c in Mat3x3::inverse. -/
def scaleRow2 (c : ℚ) (m : Mat3x3) : Mat3x3 := ⟨m.row1, c • m.row2, m.row3⟩

/-- self[2] *= c in Mat3x3::inverse. -/
def scaleRow3 (c : ℚ) (m : Mat3x3) : Mat3x3 := ⟨m.row1, m.row2, c • m.row3⟩

/-- self[1] -= f * self[0] in Mat3x3::inverse. -/
def subR2R1 (f : ℚ) (m : Mat3x3) : Mat3x3 := ⟨m.row1, m.row2 - f • m.row1, m.row3⟩

/-- self[2] -= f * self[0] in Mat3x3::inverse. -/
def subR3R1 (f : ℚ) (m : Mat3x3) : Mat3x3 := ⟨m.row1, m.row2, m.row3 - f • m.row1⟩

/-- self[0] -= f * self[1] in Mat3x3::inverse. -/
def subR1R2 (f : ℚ) (m : Mat3x3) : Mat3x3 := ⟨m.row1 - f • m.row2, m.row2, m.row3⟩

/-- self[2] -= f * self[1] in Mat3x3::inverse. -/
def subR3R2 (f : ℚ) (m : Mat3x3) : Mat3x3 := ⟨m.row1, m.row2, m.row3 - f • m.row2⟩

/-- self[0] -= f * self[2] in Mat3x3::inverse. -/
def subR1R3 (f : ℚ) (m : Mat3x3) : Mat3x3 := ⟨m.row1 - f • m.row3, m.row2, m.row3⟩

/-- self[1] -= f * self[2] in Mat3x3::inverse. -/
def subR2R3 (f : ℚ) (m : Mat3x3) : Mat3x3 := ⟨m.row1, m.row2 - f • m.row3, m.row3⟩

/-- The initial block of Mat3x3::inverse (math.rs lines 284-294): when
self[0][0] is 0, swap row 1 with the first of rows 2, 3 whose leading
entry is nonzero (in both self and the identity-seeded inverse), or give
up.  The pair is (self, inverse). -/
def gj_pre (m : Mat3x3) : Option (Mat3x3 × Mat3x3) :=
  if m.row1.x = 0 then
    if m.row2.x ≠ 0 then some (swap12 m, swap12 identity)
    else if m.row3.x ≠ 0 then some (swap13 m, swap13 identity)
    else none
  else some (m, identity)

/-- The pivot-check, normalization and elimination of iteration i = 0
of the Gauss-Jordan loop in Mat3x3::inverse, after any pivot swap: fail
on a zero pivot, else scale row 1 by the pivot reciprocal and subtract
the scaled row from rows 2 and 3, in self and inverse alike. -/
def gj_elim0 (p : Mat3x3 × Mat3x3) : Option (Mat3x3 × Mat3x3) :=
  if p.1.row1.x = 0 then none
  else
    let c := p.1.row1.x⁻¹
    let norm := (scaleRow1 c p.1, scaleRow1 c p.2)
    let f1 := norm.1.row2.x
    let e1 := (subR2R1 f1 norm.1, subR2R1 f1 norm.2)
    let f2 := e1.1.row3.x
    some (subR3R1 f2 e1.1, subR3R1 f2 e1.2)

/-- Iteration i = 0 of the Gauss-Jordan loop in Mat3x3::inverse: pivot
fix-up searching rows 2 then 3, then the normalize-and-eliminate tail. -/
def gj_step0 (p : Mat3x3 × Mat3x3) : Option (Mat3x3 × Mat3x3) :=
  gj_elim0
    (if p.1.row1.x = 0 then
      if p.1.row2.x ≠ 0 then (swap12 p.1, swap12 p.2)
      else if p.1.row3.x ≠ 0 then (swap13 p.1, swap13 p.2)
      else p
    else p)

/-- The pivot-check, normalization and elimination of iteration i = 1. -/
def gj_elim1 (p : Mat3x3 × Mat3x3) : Option (Mat3x3 × Mat3x3) :=
  if p.1.row2.y = 0 then none
  else
    let c := p.1.row2.y⁻¹
    let norm := (scaleRow2 c p.1, scaleRow2 c p.2)
    let f1 := norm.1.row1.y
    let e1 := (subR1R2 f1 norm.1, subR1R2 f1 norm.2)
    let f2 := e1.1.row3.y
    some (subR3R2 f2 e1.1, subR3R2 f2 e1.2)

/-- Iteration i = 1 of the Gauss-Jordan loop: pivot fix-up searching row
3, then the normalize-and-eliminate tail. -/
def gj_step1 (p : Mat3x3 × Mat3x3) : Option (Mat3x3 × Mat3x3) :=
  gj_elim1
    (if p.1.row2.y = 0 then
      if p.1.row3.y ≠ 0 then (swap23 p.1, swap23 p.2) else p
    else p)

/-- Iteration i = 2 of the Gauss-Jordan loop: no rows remain to search,
so a zero pivot fails; otherwise normalize row 3 and eliminate rows 1
and 2. -/
def gj_step2 (p : Mat3x3 × Mat3x3) : Option (Mat3x3 × Mat3x3) :=
  if p.1.row3.z = 0 then none
  else
    let c := p.1.row3.z⁻¹
    let norm := (scaleRow3 c p.1, scaleRow3 c p.2)
    let f1 := norm.1.row1.z
    let e1 := (subR1R3 f1 norm.1, subR1R3 f1 norm.2)
    let f2 := e1.1.row2.z
    some (subR2R3 f2 e1.1, subR2R3 f2 e1.2)

/-- Mat3x3::inverse (math.rs): the initial column-0 block followed by the
three unrolled Gauss-Jordan iterations; the answer is the accumulated
inverse half of the pair. -/
def inverse (m : Mat3x3) : Option Mat3x3 :=
  ((((gj_pre m).bind gj_step0).bind gj_step1).bind gj_step2).map Prod.snd

/-- The determinant of a Mat3x3, written out; used to state singularity. -/
def det3 (m : Mat3x3) : ℚ :=
  m.row1.x * (m.row2.y * m.row3.z - m.row2.z * m.row3.y)
    - m.row1.y * (m.row2.x * m.row3.z - m.row2.z * m.row3.x)
    + m.row1.z * (m.row2.x * m.row3.y - m.row2.y * m.row3.x)

/-- A Mat3x3 as a Mathlib matrix. -/
def toMatrix (m : Mat3x3) : Matrix (Fin 3) (Fin 3) ℚ :=
  !![m.row1.x, m.row1.y, m.row1.z;
     m.row2.x, m.row2.y, m.row2.z;
     m.row3.x, m.row3.y, m.row3.z]

end Mat3x3

/-! ## Theorems -/

/-- Claim C7 (evidence of the code bug): advance_state reduces modulo
2u64 << 48 = 2^49, not 2^48 as its own comment ("LCG params as used in
java") and the spec describe.  From state 11164 the stored state becomes
281499187329399, which is not a 48-bit value and differs from the
Java-style state (s * 0x5DEECE66D + 11) mod 2^48. -/
theorem c7_lcg_state_not_48_bits :
    lcg_advance_state 11164 = 281499187329399 ∧
    2 ^ 48 ≤ lcg_advance_state 11164 ∧
    lcg_advance_state 11164 ≠ (11164 * 0x5DEECE66D + 11) % 2 ^ 48 ∧
    (lcg_next 11164).2 = lcg_advance_state 11164 ∧
    (lcg_next 11164).1 = lcg_advance_state 11164 / 2 ^ 16 % 2 ^ 32 := by
  refine ⟨by decide, by decide, by decide, rfl, rfl⟩

/-- Claim C5: sees_light returns false exactly when the inclusive
intersection of the world with the unit ray from the point toward the
light yields a hit whose squared distance is below the squared distance
to the light plus EPSILON, and true otherwise. -/
theorem c5_sees_light_shadow_test (sq : ℚ → ℚ) (sc : Scene) (pos : Vec3) :
    sc.sees_light sq pos = false ↔
      ∃ col, sc.world (Ray.new_unit sq pos (sc.light_pos - pos)) true = some col ∧
        col.distance ^ 2 - (sc.light_pos - pos).squared_magnitude < EPSILON := by
  unfold Scene.sees_light intersect_inclusive is_some_and
  cases hw : sc.world (Ray.new_unit sq pos (sc.light_pos - pos)) true with
  | none => simp [hw]
  | some col => simp [hw]

/-- Claim C6: cast_ray terminates: the recursion is structural on the
bounce budget, each recursive call receives a budget exactly one
smaller, so the recursion depth is at most the budget; and when the
world intersection is none, cast_ray returns BLACK without recursing. -/
theorem c6_cast_ray_terminates {σ : Type} (sq : ℚ → ℚ) (sc : Scene)
    (rd : σ → Vec3 → Vec3 × σ) (rf : Vec3 → Vec3 → Vec3) (b : Nat) (rand : σ) (ray : Ray) :
    (sc.world ray false = none →
      Scene.cast_ray sq sc rd rf b rand ray = Color.BLACK ∧
      Scene.cast_ray_depth sc rd b rand ray = 0) ∧
    Scene.cast_ray_depth sc rd b rand ray ≤ b := by
  constructor
  · intro h
    constructor
    · rw [Scene.cast_ray]
      simp [intersect_exclusive, h]
    · rw [Scene.cast_ray_depth]
      simp [intersect_exclusive, h]
  · induction b generalizing rand ray with
    | zero =>
      rw [Scene.cast_ray_depth]
      cases hw : intersect_exclusive sc.world ray <;> simp
    | succ n ih =>
      rw [Scene.cast_ray_depth]
      cases hw : intersect_exclusive sc.world ray with
      | none => simp
      | some rc =>
        simp only []
        have := ih ((rd rand rc.collision.material.normal).2)
          ⟨rc.collision_point, (rd rand rc.collision.material.normal).1⟩
        omega

/-- Claim C2 counterexample: with include_start = true the sphere code
applies no lower bound to the chosen root, so a sphere entirely behind
the ray origin yields a collision at negative distance -4 (here the
discriminant value is 1, so the constant oracle 1 is its exact square
root, and the ray direction is unit). -/
theorem c2_negative_distance_counterexample :
    Sphere.ray_intersection (fun _ => 1) ⟨⟨0, 0, -3⟩, 1, Color.BLACK⟩
        ⟨⟨0, 0, 0⟩, ⟨0, 0, 1⟩⟩ true
      = some ⟨-4, ⟨⟨0, 0, -1⟩, Color.BLACK⟩⟩ ∧
    (-4 : ℚ) < 0 ∧
    ((Sphere.mk ⟨0, 0, -3⟩ 1 Color.BLACK).intersect_equation ⟨⟨0, 0, 0⟩, ⟨0, 0, 1⟩⟩).2.2 = 1 ∧
    (1 : ℚ) * 1 = 1 ∧ (0 : ℚ) ≤ 1 ∧
    (Vec3.dot ⟨0, 0, 1⟩ ⟨0, 0, 1⟩ : ℚ) = 1 := by
  refine ⟨?_, by norm_num, ?_, by norm_num, by norm_num, ?_⟩
  · norm_num [Sphere.ray_intersection, Sphere.intersect_equation, EPSILON, Vec3.dot,
      Vec3.sub_def, Vec3.add_def, Vec3.neg_def, Vec3.smul_def, Color.BLACK, Color.from_rgb]
  · norm_num [Sphere.intersect_equation, Vec3.dot, Vec3.sub_def]
  · norm_num [Vec3.dot]

/-- Claim C2 as amended: ray_intersection returns none when the
discriminant is negative; a returned collision carries distance
cx - sqrt(discriminant), and that distance is at least EPSILON when
include_start is false.  (When include_start is true no lower bound is
enforced; the distance may be negative, see the counterexample.) -/
theorem c2_sphere_nearest_root (sq : ℚ → ℚ) (s : Sphere) (ray : Ray) (inc : Bool) :
    ((s.intersect_equation ray).2.2 < 0 → s.ray_intersection sq ray inc = none) ∧
    (∀ col, s.ray_intersection sq ray inc = some col →
      col.distance = (s.intersect_equation ray).2.1 - sq (s.intersect_equation ray).2.2 ∧
      (inc = false → EPSILON ≤ col.distance)) := by
  constructor
  · intro h
    unfold Sphere.ray_intersection
    simp [h]
  · intro col hcol
    simp only [Sphere.ray_intersection] at hcol
    split_ifs at hcol with h1 h2
    obtain rfl := Option.some.inj hcol
    refine ⟨rfl, fun hinc => ?_⟩
    push_neg at h2
    exact h2 hinc

/-- Claim C9 counterexample: Lambertian::reflect adds the
hemisphere-flipped sample, not the raw sphere sample the claim
describes.  For raw sample (1,0,0) (unit) and normal (-1,3/2,0) the dot
product is negative, the flip fires, and the code result (-4/5,3/5,0)
differs from normalize(u+n) = (0,1,0); both consulted magnitudes are
exact rationals 5/2 and 3/2, and the oracle returns exactly them. -/
theorem c9_flip_counterexample :
    lambertian_reflect (fun q => if q = 25/4 then (5/2 : ℚ) else if q = 9/4 then 3/2 else 0)
        ⟨1, 0, 0⟩ ⟨-1, 3/2, 0⟩ = ⟨-4/5, 3/5, 0⟩ ∧
    lambertian_reflect_claimed (fun q => if q = 25/4 then (5/2 : ℚ) else if q = 9/4 then 3/2 else 0)
        ⟨1, 0, 0⟩ ⟨-1, 3/2, 0⟩ = ⟨0, 1, 0⟩ ∧
    lambertian_reflect (fun q => if q = 25/4 then (5/2 : ℚ) else if q = 9/4 then 3/2 else 0)
        ⟨1, 0, 0⟩ ⟨-1, 3/2, 0⟩ ≠
      lambertian_reflect_claimed (fun q => if q = 25/4 then (5/2 : ℚ) else if q = 9/4 then 3/2 else 0)
        ⟨1, 0, 0⟩ ⟨-1, 3/2, 0⟩ ∧
    (Vec3.dot ⟨1, 0, 0⟩ ⟨1, 0, 0⟩ : ℚ) = 1 ∧
    (uniform_relfection ⟨1, 0, 0⟩ ⟨-1, 3/2, 0⟩ + ⟨-1, 3/2, 0⟩).squared_magnitude = 25/4 ∧
    (5/2 : ℚ) * (5/2) = 25/4 ∧ (0 : ℚ) ≤ 5/2 ∧
    ((⟨1, 0, 0⟩ : Vec3) + ⟨-1, 3/2, 0⟩).squared_magnitude = 9/4 ∧
    (3/2 : ℚ) * (3/2) = 9/4 ∧ (0 : ℚ) ≤ 3/2 := by
  refine ⟨?_, ?_, ?_, by norm_num [Vec3.dot], ?_, by norm_num, by norm_num, ?_,
    by norm_num, by norm_num⟩ <;>
    norm_num [lambertian_reflect, lambertian_reflect_claimed, uniform_relfection,
      Vec3.normalize, Vec3.magnitude, Vec3.squared_magnitude, Vec3.dot, Vec3.add_def,
      Vec3.neg_def, Vec3.smul_def, Vec3.sub_def]

/-- The foldl behind min_by, started on a nonempty accumulator, yields
an element among the accumulator and the list that is minimal for all of
them, and never loses the accumulator bound. -/
theorem min_by_fold_spec (l : List Collision) : ∀ a : Collision,
    ∃ r, l.foldl min_by_step (some a) = some r ∧ (r = a ∨ r ∈ l) ∧
      r.distance ≤ a.distance ∧ ∀ x ∈ l, r.distance ≤ x.distance := by
  induction l with
  | nil => exact fun a => ⟨a, rfl, Or.inl rfl, le_refl _, by simp⟩
  | cons c t ih =>
    intro a
    rw [List.foldl_cons]
    by_cases hlt : c.distance < a.distance
    · rw [show min_by_step (some a) c = some c by simp [min_by_step, hlt]]
      obtain ⟨r, h1, h2, h3, h4⟩ := ih c
      refine ⟨r, h1, ?_, le_trans h3 (le_of_lt hlt), ?_⟩
      · rcases h2 with h | h
        · exact Or.inr (h ▸ List.mem_cons_self c t)
        · exact Or.inr (List.mem_cons_of_mem _ h)
      · intro x hx
        rcases List.mem_cons.mp hx with rfl | hx
        · exact h3
        · exact h4 x hx
    · rw [show min_by_step (some a) c = some a by simp [min_by_step, hlt]]
      obtain ⟨r, h1, h2, h3, h4⟩ := ih a
      refine ⟨r, h1, ?_, h3, ?_⟩
      · rcases h2 with h | h
        · exact Or.inl h
        · exact Or.inr (List.mem_cons_of_mem _ h)
      · intro x hx
        rcases List.mem_cons.mp hx with rfl | hx
        · exact le_trans h3 (not_lt.mp hlt)
        · exact h4 x hx

/-- min_by returns none exactly on the empty list. -/
theorem min_by_distance_none_iff (l : List Collision) :
    min_by_distance l = none ↔ l = [] := by
  cases l with
  | nil => simp [min_by_distance]
  | cons c t =>
    simp only [min_by_distance, List.foldl_cons]
    rw [show min_by_step none c = some c from rfl]
    obtain ⟨r, h1, -, -, -⟩ := min_by_fold_spec t c
    simp [h1]

/-- A min_by result is a member of the list and minimal for it. -/
theorem min_by_distance_some (l : List Collision) (r : Collision)
    (h : min_by_distance l = some r) :
    r ∈ l ∧ ∀ x ∈ l, r.distance ≤ x.distance := by
  cases l with
  | nil => simp [min_by_distance] at h
  | cons c t =>
    simp only [min_by_distance, List.foldl_cons] at h
    rw [show min_by_step none c = some c from rfl] at h
    obtain ⟨r2, h1, h2, h3, h4⟩ := min_by_fold_spec t c
    rw [h1] at h
    obtain rfl := Option.some.inj h
    constructor
    · rcases h2 with h | h
      · exact h ▸ List.mem_cons_self c t
      · exact List.mem_cons_of_mem _ h
    · intro x hx
      rcases List.mem_cons.mp hx with rfl | hx
      · exact h3
      · exact h4 x hx

/-- Claim C8: the slice intersection is none exactly when every member
is none; a returned collision is one of the member collisions and its
distance is minimal among all member collision distances. -/
theorem c8_slice_nearest_hit (shapes : List (Ray → Bool → Option Collision)) (ray : Ray)
    (inc : Bool) :
    (slice_ray_intersection shapes ray inc = none ↔
      ∀ shape ∈ shapes, shape ray inc = none) ∧
    ∀ col, slice_ray_intersection shapes ray inc = some col →
      (∃ shape ∈ shapes, shape ray inc = some col) ∧
      ∀ shape ∈ shapes, ∀ c2, shape ray inc = some c2 → col.distance ≤ c2.distance := by
  constructor
  · rw [slice_ray_intersection, min_by_distance_none_iff, List.filterMap_eq_nil_iff]
  · intro col hcol
    obtain ⟨hmem, hmin⟩ :=
      min_by_distance_some (shapes.filterMap fun shape => shape ray inc) col
        (by simpa [slice_ray_intersection] using hcol)
    constructor
    · exact List.mem_filterMap.mp hmem
    · intro shape hs c2 hc2
      exact hmin c2 (List.mem_filterMap.mpr ⟨shape, hs, hc2⟩)

/-- Two row-major indices with in-range column parts agree only when
both coordinates agree. -/
theorem rowmajor_index_inj (w a b c d : Nat) (hb : b < w) (hd : d < w)
    (h : a * w + b = c * w + d) : a = c ∧ b = d := by
  have hw : 0 < w := lt_of_le_of_lt (Nat.zero_le b) hb
  have h1 : (a * w + b) % w = b := by
    rw [Nat.mul_comm a w, Nat.mul_add_mod, Nat.mod_eq_of_lt hb]
  have h2 : (c * w + d) % w = d := by
    rw [Nat.mul_comm c w, Nat.mul_add_mod, Nat.mod_eq_of_lt hd]
  have hbd : b = d := by rw [← h1, ← h2, h]
  subst hbd
  have hac : a * w = c * w := by omega
  exact ⟨Nat.eq_of_mul_eq_mul_right hw hac, rfl⟩

/-- Claim C10: writing through at_mut(x, y) fills the slot that
at(x, height-1-y) reads; every other in-range pixel is untouched, and
at(x, y) sees the written value exactly when y = height-1-y. -/
theorem c10_at_mut_vertical_flip (img : Image) (x y : Nat) (c : Color)
    (hx : x < img.width) (hy : y < img.height)
    (hlen : img.data.length = img.width * img.height) :
    (img.write_at x y c).at x (img.height - 1 - y) = some c ∧
    (∀ x2 y2, x2 < img.width → y2 < img.height → (x2, y2) ≠ (x, img.height - 1 - y) →
      (img.write_at x y c).at x2 y2 = img.at x2 y2) ∧
    (y = img.height - 1 - y → (img.write_at x y c).at x y = some c) ∧
    (y ≠ img.height - 1 - y → (img.write_at x y c).at x y = img.at x y) := by
  have hidx : (img.height - 1 - y) * img.width + x < img.data.length := by
    have h1 : img.height - 1 - y ≤ img.height - 1 := Nat.sub_le _ _
    have h2 : (img.height - 1 - y) * img.width ≤ (img.height - 1) * img.width :=
      Nat.mul_le_mul_right _ h1
    have h3 : (img.height - 1) * img.width + img.width = img.height * img.width := by
      have : img.height - 1 + 1 = img.height := by omega
      calc (img.height - 1) * img.width + img.width
          = (img.height - 1 + 1) * img.width := by rw [Nat.succ_mul]
        _ = img.height * img.width := by rw [this]
    calc (img.height - 1 - y) * img.width + x
        < (img.height - 1 - y) * img.width + img.width := Nat.add_lt_add_left hx _
      _ ≤ (img.height - 1) * img.width + img.width := Nat.add_le_add_right h2 _
      _ = img.height * img.width := h3
      _ = img.width * img.height := Nat.mul_comm _ _
      _ = img.data.length := hlen.symm
  have horder : img.height - y - 1 = img.height - 1 - y := by omega
  have hread : ∀ x2 y2, x2 < img.width → y2 * img.width + x2 = (img.height - 1 - y) * img.width + x →
      (img.write_at x y c).at x2 y2 = some c := by
    intro x2 y2 _ heq
    unfold Image.at Image.write_at
    simp only [horder]
    rw [heq]
    exact List.getElem?_set_eq_of_lt c hidx
  have hskip : ∀ x2 y2, y2 * img.width + x2 ≠ (img.height - 1 - y) * img.width + x →
      (img.write_at x y c).at x2 y2 = img.at x2 y2 := by
    intro x2 y2 hne
    unfold Image.at Image.write_at
    simp only [horder]
    exact List.getElem?_set_ne (Ne.symm hne)
  refine ⟨hread x (img.height - 1 - y) hx rfl, ?_, ?_, ?_⟩
  · intro x2 y2 hx2 _ hne
    refine hskip x2 y2 fun heq => hne ?_
    obtain ⟨h1, h2⟩ := rowmajor_index_inj img.width y2 x2 (img.height - 1 - y) x hx2 hx heq
    simp [h1, h2]
  · intro hflip
    exact hread x y hx (by rw [← hflip])
  · intro hflip
    refine hskip x y fun heq => ?_
    obtain ⟨h1, -⟩ := rowmajor_index_inj img.width y x (img.height - 1 - y) x hx hx heq
    exact hflip h1

/-- Claim C10 witness: a concrete 2×2 image, writing pixel (0, 0) lands
in the row that at(0, 1) reads. -/
theorem c10_witness :
    ((0 : Nat) < 2 ∧ (0 : Nat) < 2 ∧
      ([Color.BLACK, Color.BLACK, Color.BLACK, Color.BLACK] : List Color).length = 2 * 2) ∧
    (((Image.mk 2 2 [Color.BLACK, Color.BLACK, Color.BLACK, Color.BLACK]).write_at 0 0
          (Color.from_rgb 1 0 0)).at 0 1 = some (Color.from_rgb 1 0 0) ∧
      (∀ x2 y2, x2 < 2 → y2 < 2 → (x2, y2) ≠ ((0 : Nat), (1 : Nat)) →
        ((Image.mk 2 2 [Color.BLACK, Color.BLACK, Color.BLACK, Color.BLACK]).write_at 0 0
            (Color.from_rgb 1 0 0)).at x2 y2 =
          (Image.mk 2 2 [Color.BLACK, Color.BLACK, Color.BLACK, Color.BLACK]).at x2 y2) ∧
      ((0 : Nat) = 1 →
        ((Image.mk 2 2 [Color.BLACK, Color.BLACK, Color.BLACK, Color.BLACK]).write_at 0 0
            (Color.from_rgb 1 0 0)).at 0 0 = some (Color.from_rgb 1 0 0)) ∧
      ((0 : Nat) ≠ 1 →
        ((Image.mk 2 2 [Color.BLACK, Color.BLACK, Color.BLACK, Color.BLACK]).write_at 0 0
            (Color.from_rgb 1 0 0)).at 0 0 =
          (Image.mk 2 2 [Color.BLACK, Color.BLACK, Color.BLACK, Color.BLACK]).at 0 0)) :=
  ⟨⟨by norm_num, by norm_num, by norm_num⟩,
    c10_at_mut_vertical_flip (Image.mk 2 2 [Color.BLACK, Color.BLACK, Color.BLACK, Color.BLACK])
      0 0 (Color.from_rgb 1 0 0) (by norm_num) (by norm_num) (by norm_num)⟩

/-- Expanding the squared magnitude of l • d - rc. -/
theorem dot_expand_smul_sub (l : ℚ) (d rc : Vec3) :
    (l • d - rc).dot (l • d - rc) =
      l * l * d.dot d - 2 * l * (rc.dot d) + rc.dot rc := by
  simp only [Vec3.dot, Vec3.smul_def, Vec3.sub_def, Vec3.add_def, Vec3.neg_def]
  ring

/-- The scalar core of the sphere quadratic: for either root l of
t² - 2Pt + (C - rr2) (with s2² the discriminant P² - (C - rr2)), the
quadratic evaluates to rr2. -/
theorem sphere_key (P C l s2 rr2 : ℚ) (hs : s2 * s2 = P * P - (C - rr2))
    (hl : l = P - s2 ∨ l = P + s2) : l * l * 1 - 2 * l * P + C = rr2 := by
  rcases hl with rfl | rfl <;> linear_combination hs

/-- Either root of the sphere quadratic lands on the sphere surface:
the point l • d - rc has squared distance radius² from the origin of
rc (the relative center). -/
theorem sphere_surface (d rc : Vec3) (radius s2 l : ℚ) (hd : d.dot d = 1)
    (hs : s2 * s2 = rc.dot d * (rc.dot d) - d.dot d * (rc.dot rc - radius * radius))
    (hl : l = rc.dot d - s2 ∨ l = rc.dot d + s2) :
    (l • d - rc).dot (l • d - rc) = radius * radius := by
  rw [hd] at hs
  rw [dot_expand_smul_sub, hd]
  refine sphere_key (rc.dot d) (rc.dot rc) l s2 (radius * radius) ?_ hl
  linarith

/-- Dot product of a scaled vector with itself. -/
theorem dot_smul_self (c : ℚ) (v : Vec3) : (c • v).dot (c • v) = c * c * v.dot v := by
  simp only [Vec3.dot, Vec3.smul_def]
  ring

/-- Dot product of a scaled vector with another vector. -/
theorem smul_dot (c : ℚ) (v w : Vec3) : (c • v).dot w = c * v.dot w := by
  simp only [Vec3.dot, Vec3.smul_def]
  ring

/-- Dot product with a negated left factor. -/
theorem neg_dot (v w : Vec3) : (-v).dot w = -(v.dot w) := by
  simp only [Vec3.dot, Vec3.neg_def]
  ring

/-- Negation preserves the squared magnitude. -/
theorem neg_dot_neg (v : Vec3) : (-v).dot (-v) = v.dot v := by
  simp only [Vec3.dot, Vec3.neg_def]
  ring

/-- The hit point relative to the sphere center is l • dir - (center - start). -/
theorem point_at_sub_center (ray : Ray) (center : Vec3) (l : ℚ) :
    ray.point_at l - center = l • ray.dir - (center - ray.start) := by
  ext <;> simp [Ray.point_at, Vec3.add_def, Vec3.sub_def, Vec3.neg_def, Vec3.smul_def] <;> ring

/-- Claim C1: for a sphere of positive radius and a unit-direction ray
starting strictly outside it, any collision Sphere::ray_intersection or
InvertedSphere::ray_intersection returns hits the sphere surface
exactly ((hit - center) . (hit - center) = radius²), and the returned
normal is unit and points away from the center for Sphere, toward it
for InvertedSphere.  The sqrt oracle is assumed exact at the
discriminant when the discriminant is nonnegative. -/
theorem c1_sphere_hit_on_surface (sq : ℚ → ℚ) (center : Vec3) (radius : ℚ) (color : Color)
    (ray : Ray) (inc : Bool)
    (hrad : 0 < radius)
    (hdir : ray.dir.dot ray.dir = 1)
    (hout : radius * radius < (center - ray.start).dot (center - ray.start))
    (hsq : 0 ≤ ((Sphere.mk center radius color).intersect_equation ray).2.2 →
      sq ((Sphere.mk center radius color).intersect_equation ray).2.2 *
          sq ((Sphere.mk center radius color).intersect_equation ray).2.2 =
        ((Sphere.mk center radius color).intersect_equation ray).2.2 ∧
      0 ≤ sq ((Sphere.mk center radius color).intersect_equation ray).2.2) :
    (∀ col, (Sphere.mk center radius color).ray_intersection sq ray inc = some col →
      (ray.point_at col.distance - center).dot (ray.point_at col.distance - center) =
          radius * radius ∧
      col.material.normal.dot col.material.normal = 1 ∧
      0 < col.material.normal.dot (ray.point_at col.distance - center)) ∧
    (∀ col,
      (InvertedSphere.mk (Sphere.mk center radius color)).ray_intersection sq ray inc =
          some col →
      (ray.point_at col.distance - center).dot (ray.point_at col.distance - center) =
          radius * radius ∧
      col.material.normal.dot col.material.normal = 1 ∧
      col.material.normal.dot (ray.point_at col.distance - center) < 0) := by
  have hrne : radius ≠ 0 := ne_of_gt hrad
  have hrinv : radius⁻¹ * (radius * radius) = radius := by field_simp
  constructor
  · intro col hcol
    simp only [Sphere.ray_intersection] at hcol
    split_ifs at hcol with h1 h2
    all_goals
      obtain rfl := Option.some.inj hcol
      simp only [Sphere.intersect_equation] at h1 hsq ⊢
      obtain ⟨hsq1, -⟩ := hsq (not_lt.mp h1)
      rw [point_at_sub_center]
      have hQ := sphere_surface ray.dir (center - ray.start) radius _ _ hdir hsq1
        (Or.inl rfl)
      refine ⟨hQ, ?_, ?_⟩
      · rw [dot_smul_self, hQ]
        field_simp
      · rw [smul_dot, hQ, hrinv]
        exact hrad
  · intro col hcol
    simp only [InvertedSphere.ray_intersection] at hcol
    split_ifs at hcol with h1 h2
    all_goals
      obtain rfl := Option.some.inj hcol
      simp only [Sphere.intersect_equation] at h1 hsq ⊢
      obtain ⟨hsq1, -⟩ := hsq (not_lt.mp h1)
      rw [point_at_sub_center]
      have hQ := sphere_surface ray.dir (center - ray.start) radius _ _ hdir hsq1
        (Or.inr rfl)
      refine ⟨hQ, ?_, ?_⟩
      · rw [dot_smul_self, neg_dot_neg, hQ]
        field_simp
      · rw [smul_dot, neg_dot, hQ, mul_neg, hrinv]
        linarith

/-- Claim C1 witness: the unit sphere centered at (0,0,3), hit by the
unit ray from the origin along +z; the discriminant is 1, so the
constant oracle 1 is its exact square root. -/
theorem c1_witness :
    ((0 : ℚ) < 1 ∧
      (Vec3.dot ⟨0, 0, 1⟩ ⟨0, 0, 1⟩ : ℚ) = 1 ∧
      (1 : ℚ) * 1 < Vec3.dot ((⟨0, 0, 3⟩ : Vec3) - ⟨0, 0, 0⟩) ((⟨0, 0, 3⟩ : Vec3) - ⟨0, 0, 0⟩) ∧
      ((Sphere.mk ⟨0, 0, 3⟩ 1 Color.BLACK).intersect_equation
        (Ray.mk ⟨0, 0, 0⟩ ⟨0, 0, 1⟩)).2.2 = 1) ∧
    ((∀ col, (Sphere.mk (⟨0, 0, 3⟩ : Vec3) 1 Color.BLACK).ray_intersection (fun _ => 1)
          (Ray.mk ⟨0, 0, 0⟩ ⟨0, 0, 1⟩) false = some col →
        ((Ray.mk (⟨0, 0, 0⟩ : Vec3) ⟨0, 0, 1⟩).point_at col.distance - ⟨0, 0, 3⟩).dot
            ((Ray.mk (⟨0, 0, 0⟩ : Vec3) ⟨0, 0, 1⟩).point_at col.distance - ⟨0, 0, 3⟩) = 1 * 1 ∧
        col.material.normal.dot col.material.normal = 1 ∧
        0 < col.material.normal.dot
            ((Ray.mk (⟨0, 0, 0⟩ : Vec3) ⟨0, 0, 1⟩).point_at col.distance - ⟨0, 0, 3⟩)) ∧
      (∀ col, (InvertedSphere.mk (Sphere.mk (⟨0, 0, 3⟩ : Vec3) 1 Color.BLACK)).ray_intersection
          (fun _ => 1) (Ray.mk ⟨0, 0, 0⟩ ⟨0, 0, 1⟩) false = some col →
        ((Ray.mk (⟨0, 0, 0⟩ : Vec3) ⟨0, 0, 1⟩).point_at col.distance - ⟨0, 0, 3⟩).dot
            ((Ray.mk (⟨0, 0, 0⟩ : Vec3) ⟨0, 0, 1⟩).point_at col.distance - ⟨0, 0, 3⟩) = 1 * 1 ∧
        col.material.normal.dot col.material.normal = 1 ∧
        col.material.normal.dot
            ((Ray.mk (⟨0, 0, 0⟩ : Vec3) ⟨0, 0, 1⟩).point_at col.distance - ⟨0, 0, 3⟩) < 0)) :=
  ⟨⟨by norm_num, by norm_num [Vec3.dot],
      by norm_num [Vec3.dot, Vec3.sub_def, Vec3.add_def, Vec3.neg_def],
      by norm_num [Sphere.intersect_equation, Vec3.dot, Vec3.sub_def, Vec3.add_def,
        Vec3.neg_def]⟩,
    c1_sphere_hit_on_surface (fun _ => 1) ⟨0, 0, 3⟩ 1 Color.BLACK
      (Ray.mk ⟨0, 0, 0⟩ ⟨0, 0, 1⟩) false (by norm_num) (by norm_num [Vec3.dot])
      (by norm_num [Vec3.dot, Vec3.sub_def, Vec3.add_def, Vec3.neg_def])
      (fun _ => by norm_num [Sphere.intersect_equation, Vec3.dot, Vec3.sub_def, Vec3.add_def,
        Vec3.neg_def])⟩

/-- A full row from column 0. -/
theorem row_from_zero (w y : Nat) :
    row_from w 0 y = (List.range w).map fun x => (x, y) := by
  rw [row_from, Nat.sub_zero, List.range_eq_range']

/-- A row tail starting at or past the width is empty. -/
theorem row_from_empty (w xs y : Nat) (h : w ≤ xs) : row_from w xs y = [] := by
  simp [row_from, Nat.sub_eq_zero_of_le h]

/-- Splitting the first pixel off a row tail. -/
theorem row_from_cons (w xs y : Nat) (h : xs < w) :
    row_from w xs y = (xs, y) :: row_from w (xs + 1) y := by
  rw [row_from, show w - xs = w - (xs + 1) + 1 from by omega, List.range'_succ,
    List.map_cons, row_from]

/-- Splitting the last of cnt + 1 rows off. -/
theorem rows_from_snoc (w : Nat) : ∀ cnt y0, rows_from w y0 (cnt + 1) =
    rows_from w y0 cnt ++ ((List.range w).map fun x => (x, y0 + cnt)) := by
  intro cnt
  induction cnt with
  | zero => intro y0; simp [rows_from]
  | succ n ih =>
    intro y0
    rw [rows_from, ih (y0 + 1), show y0 + 1 + n = y0 + (n + 1) from by omega,
      ← List.append_assoc]
    conv_rhs => rw [rows_from]

/-- The row-major pixel list is the block of rows from row 0. -/
theorem all_pixels_eq_rows_from (w h : Nat) : all_pixels w h = rows_from w 0 h := by
  induction h with
  | zero => simp [all_pixels, rows_from]
  | succ n ih =>
    have hsplit : all_pixels w (n + 1) =
        all_pixels w n ++ ((List.range w).map fun x => (x, n)) := by
      rw [all_pixels, all_pixels, List.range_succ, List.flatMap_append,
        List.flatMap_singleton]
    rw [hsplit, ih, rows_from_snoc w n 0, Nat.zero_add]

/-- Running DisplayIter::next from any reachable state of a w×h display
(x_end = w - 1, y_end = h - 1, x_start ≤ w, y_start ≤ h - 1) with enough
fuel yields the remaining row-major pixels. -/
theorem display_iter_list_run (w h : Nat) (hw : 1 ≤ w) :
    ∀ fuel xs ys, ys ≤ h - 1 → xs ≤ w → w - xs + (h - 1 - ys) * w < fuel →
      display_iter_list fuel ⟨⟨w, h⟩, xs, w - 1, ys, h - 1⟩ =
        row_from w xs ys ++ rows_from w (ys + 1) (h - 1 - ys) := by
  intro fuel
  induction fuel with
  | zero => exact fun xs ys _ _ hf => absurd hf (Nat.not_lt_zero _)
  | succ f ih =>
    intro xs ys hys hxs hf
    by_cases hG1 : ys = h - 1 ∧ w - 1 < xs
    · have hnext : DisplayIter.next ⟨⟨w, h⟩, xs, w - 1, ys, h - 1⟩ = none := by
        unfold DisplayIter.next
        rw [if_pos hG1]
      rw [display_iter_list, hnext, row_from_empty w xs ys (by omega),
        show h - 1 - ys = 0 by omega]
      rfl
    · by_cases hwrap : w ≤ xs
      · have hxsw : xs = w := le_antisymm hxs hwrap
        have hys2 : ys < h - 1 := by
          by_contra hcon
          exact hG1 ⟨le_antisymm hys (not_lt.mp hcon), by omega⟩
        have hg2 : ¬ h - 1 < ys + 1 := by omega
        have hnext : DisplayIter.next ⟨⟨w, h⟩, xs, w - 1, ys, h - 1⟩ =
            some ((0, ys + 1), ⟨⟨w, h⟩, 1, w - 1, ys + 1, h - 1⟩) := by
          unfold DisplayIter.next DisplayIter.emit
          dsimp only
          rw [if_neg hG1, if_pos hwrap]
          dsimp only
          rw [if_neg hg2]
        have hstep : display_iter_list (f + 1) ⟨⟨w, h⟩, xs, w - 1, ys, h - 1⟩ =
            (0, ys + 1) :: display_iter_list f ⟨⟨w, h⟩, 1, w - 1, ys + 1, h - 1⟩ := by
          rw [display_iter_list, hnext]
        have hfuel2 : w - 1 + (h - 1 - (ys + 1)) * w < f := by
          have e1 : (h - 1 - (ys + 1)) * w = (h - 1 - ys) * w - w := by
            rw [show h - 1 - (ys + 1) = h - 1 - ys - 1 from by omega, Nat.sub_one_mul]
          have e2 : w ≤ (h - 1 - ys) * w := Nat.le_mul_of_pos_left w (by omega)
          omega
        rw [hstep, ih 1 (ys + 1) (by omega) (by omega) hfuel2,
          row_from_empty w xs ys hwrap,
          show h - 1 - ys = h - 1 - (ys + 1) + 1 from by omega, rows_from,
          ← row_from_zero, row_from_cons w 0 (ys + 1) (by omega)]
        simp
      · have hxlt : xs < w := lt_of_not_ge hwrap
        have hg2 : ¬ h - 1 < ys := not_lt.mpr hys
        have hnext : DisplayIter.next ⟨⟨w, h⟩, xs, w - 1, ys, h - 1⟩ =
            some ((xs, ys), ⟨⟨w, h⟩, xs + 1, w - 1, ys, h - 1⟩) := by
          unfold DisplayIter.next DisplayIter.emit
          dsimp only
          rw [if_neg hG1, if_neg hwrap]
          dsimp only
          rw [if_neg hg2]
        have hstep : display_iter_list (f + 1) ⟨⟨w, h⟩, xs, w - 1, ys, h - 1⟩ =
            (xs, ys) :: display_iter_list f ⟨⟨w, h⟩, xs + 1, w - 1, ys, h - 1⟩ := by
          rw [display_iter_list, hnext]
        have hfuel2 : w - (xs + 1) + (h - 1 - ys) * w < f := by omega
        rw [hstep, ih (xs + 1) ys hys (by omega) hfuel2, row_from_cons w xs ys hxlt]
        simp

/-- The pixels a fresh w×h DisplayIter yields, in order: the row-major
enumeration of all w*h coordinates. -/
theorem display_list_eq_all_pixels (w h : Nat) (hw : 1 ≤ w) (hh : 1 ≤ h) :
    display_list ⟨w, h⟩ = all_pixels w h := by
  have hfuel : w - 0 + (h - 1 - 0) * w < w * h + 1 := by
    simp only [Nat.sub_zero]
    have e1 : (h - 1) * w = h * w - w := Nat.sub_one_mul h w
    have e2 : w ≤ h * w := Nat.le_mul_of_pos_left w (by omega)
    have e3 : w * h = h * w := Nat.mul_comm w h
    omega
  rw [display_list, show DisplayIter.new ⟨w, h⟩ = ⟨⟨w, h⟩, 0, w - 1, 0, h - 1⟩ from rfl,
    display_iter_list_run w h hw (w * h + 1) 0 0 (by omega) (by omega) hfuel,
    Nat.sub_zero, row_from_zero, all_pixels_eq_rows_from]
  conv_rhs => rw [show h = h - 1 + 1 from by omega, rows_from]

/-- Concatenating the chunks of ChunkIter restores the underlying
sequence, given a positive chunk size and enough fuel. -/
theorem chunk_iter_list_flatten {α : Type} (k : Nat) (hk : 1 ≤ k) :
    ∀ fuel (l : List α), l.length ≤ fuel → (chunk_iter_list fuel k l).flatten = l := by
  intro fuel
  induction fuel with
  | zero =>
    intro l hl
    have : l = [] := List.eq_nil_of_length_eq_zero (by omega)
    simp [this, chunk_iter_list]
  | succ f ih =>
    intro l hl
    rw [chunk_iter_list]
    by_cases he : l.isEmpty
    · rw [if_pos he]
      simp [List.isEmpty_iff.mp he]
    · rw [if_neg he]
      rw [List.flatten_cons]
      have hne : l ≠ [] := by simpa [List.isEmpty_iff] using he
      have hpos : 0 < l.length := List.length_pos.mpr hne
      rw [ih (l.drop k) (by rw [List.length_drop]; omega)]
      exact List.take_append_drop k l

/-- Membership in the row-major pixel enumeration. -/
theorem mem_all_pixels (w h x y : Nat) : (x, y) ∈ all_pixels w h ↔ x < w ∧ y < h := by
  simp only [all_pixels, List.mem_flatMap, List.mem_map, List.mem_range, Prod.mk.injEq]
  constructor
  · rintro ⟨y2, hy2, x2, hx2, rfl, rfl⟩
    exact ⟨hx2, hy2⟩
  · rintro ⟨hx, hy⟩
    exact ⟨y, hy, x, hx, rfl, rfl⟩

/-- The row-major pixel enumeration has no duplicates. -/
theorem nodup_all_pixels (w h : Nat) : (all_pixels w h).Nodup := by
  induction h with
  | zero => simp [all_pixels]
  | succ n ih =>
    rw [all_pixels, List.range_succ, List.flatMap_append, List.flatMap_singleton]
    refine List.Nodup.append ih ?_ ?_
    · exact (List.nodup_range w).map fun a b hab => by
        simpa using congrArg Prod.fst hab
    · intro p hp hp2
      obtain ⟨x2, -, rfl⟩ := List.mem_map.mp hp2
      have := (mem_all_pixels w n x2 n).mp hp
      omega

/-- Claim C3: for any display width W ≥ 1, height H ≥ 1 and chunk size
k ≥ 1, the concatenation of the chunks ChunkIter produces over the
DisplayIter of a W×H display has no duplicate coordinate and contains a
coordinate (x, y) exactly when x < W and y < H: every pixel exactly
once, nothing else. -/
theorem c3_chunks_cover_each_pixel_once (w h k : Nat) (hw : 1 ≤ w) (hh : 1 ≤ h)
    (hk : 1 ≤ k) :
    ((chunk_list k (display_list ⟨w, h⟩)).flatten).Nodup ∧
    ∀ x y : Nat, (x, y) ∈ (chunk_list k (display_list ⟨w, h⟩)).flatten ↔
      x < w ∧ y < h := by
  rw [chunk_list, chunk_iter_list_flatten k hk _ _ (le_refl _),
    display_list_eq_all_pixels w h hw hh]
  exact ⟨nodup_all_pixels w h, fun x y => mem_all_pixels w h x y⟩

/-- Claim C3 witness: the 5×5 display with chunk size 3 (the spec's
(5,5,3) example). -/
theorem c3_witness :
    (1 ≤ 5 ∧ 1 ≤ 5 ∧ 1 ≤ 3) ∧
    (((chunk_list 3 (display_list ⟨5, 5⟩)).flatten).Nodup ∧
      ∀ x y : Nat, (x, y) ∈ (chunk_list 3 (display_list ⟨5, 5⟩)).flatten ↔
        x < 5 ∧ y < 5) :=
  ⟨⟨by norm_num, by norm_num, by norm_num⟩,
    c3_chunks_cover_each_pixel_once 5 5 3 (by norm_num) (by norm_num) (by norm_num)⟩

namespace Mat3x3

/-- The embedding into Mathlib matrices is multiplicative. -/
theorem toMatrix_matMul (a b : Mat3x3) :
    toMatrix (matMul a b) = toMatrix a * toMatrix b := by
  ext i j
  fin_cases i <;> fin_cases j <;>
    simp [toMatrix, matMul, transpose, from_col_vectors, Vec3.dot, Matrix.mul_apply,
      Fin.sum_univ_three]

/-- The identity Mat3x3 maps to the identity matrix. -/
theorem toMatrix_identity : toMatrix identity = 1 := by
  ext i j
  fin_cases i <;> fin_cases j <;>
    simp [toMatrix, identity, from_col_vectors, Matrix.one_apply, Matrix.vecHead,
      Matrix.vecTail]

/-- det3 computes the Mathlib determinant. -/
theorem det3_eq_det (m : Mat3x3) : (toMatrix m).det = det3 m := by
  rw [Matrix.det_fin_three]
  simp [toMatrix, det3]
  ring

/-- det3 is multiplicative. -/
theorem det3_matMul (a b : Mat3x3) : det3 (matMul a b) = det3 a * det3 b := by
  rw [← det3_eq_det, toMatrix_matMul, Matrix.det_mul, det3_eq_det, det3_eq_det]

/-- The identity is a left unit for matMul. -/
theorem matMul_identity_left (a : Mat3x3) : matMul identity a = a := by
  ext <;> simp [matMul, identity, transpose, from_col_vectors, Vec3.dot]

/-- det3 of the identity. -/
theorem det3_identity : det3 identity = 1 := by
  simp [det3, identity, from_col_vectors]

/-- Row swaps commute with right multiplication. -/
theorem matMul_swap12 (a b : Mat3x3) : matMul (swap12 a) b = swap12 (matMul a b) := rfl

/-- Row swaps commute with right multiplication. -/
theorem matMul_swap13 (a b : Mat3x3) : matMul (swap13 a) b = swap13 (matMul a b) := rfl

/-- Row swaps commute with right multiplication. -/
theorem matMul_swap23 (a b : Mat3x3) : matMul (swap23 a) b = swap23 (matMul a b) := rfl

/-- Row scaling commutes with right multiplication. -/
theorem matMul_scaleRow1 (c : ℚ) (a b : Mat3x3) :
    matMul (scaleRow1 c a) b = scaleRow1 c (matMul a b) := by
  ext <;> simp [matMul, scaleRow1, transpose, from_col_vectors, Vec3.dot, Vec3.smul_def] <;>
    ring

/-- Row scaling commutes with right multiplication. -/
theorem matMul_scaleRow2 (c : ℚ) (a b : Mat3x3) :
    matMul (scaleRow2 c a) b = scaleRow2 c (matMul a b) := by
  ext <;> simp [matMul, scaleRow2, transpose, from_col_vectors, Vec3.dot, Vec3.smul_def] <;>
    ring

/-- Row scaling commutes with right multiplication. -/
theorem matMul_scaleRow3 (c : ℚ) (a b : Mat3x3) :
    matMul (scaleRow3 c a) b = scaleRow3 c (matMul a b) := by
  ext <;> simp [matMul, scaleRow3, transpose, from_col_vectors, Vec3.dot, Vec3.smul_def] <;>
    ring

/-- Row subtraction commutes with right multiplication. -/
theorem matMul_subR2R1 (f : ℚ) (a b : Mat3x3) :
    matMul (subR2R1 f a) b = subR2R1 f (matMul a b) := by
  ext <;>
    simp [matMul, subR2R1, transpose, from_col_vectors, Vec3.dot, Vec3.smul_def,
      Vec3.sub_def, Vec3.add_def, Vec3.neg_def] <;> ring

/-- Row subtraction commutes with right multiplication. -/
theorem matMul_subR3R1 (f : ℚ) (a b : Mat3x3) :
    matMul (subR3R1 f a) b = subR3R1 f (matMul a b) := by
  ext <;>
    simp [matMul, subR3R1, transpose, from_col_vectors, Vec3.dot, Vec3.smul_def,
      Vec3.sub_def, Vec3.add_def, Vec3.neg_def] <;> ring

/-- Row subtraction commutes with right multiplication. -/
theorem matMul_subR1R2 (f : ℚ) (a b : Mat3x3) :
    matMul (subR1R2 f a) b = subR1R2 f (matMul a b) := by
  ext <;>
    simp [matMul, subR1R2, transpose, from_col_vectors, Vec3.dot, Vec3.smul_def,
      Vec3.sub_def, Vec3.add_def, Vec3.neg_def] <;> ring

/-- Row subtraction commutes with right multiplication. -/
theorem matMul_subR3R2 (f : ℚ) (a b : Mat3x3) :
    matMul (subR3R2 f a) b = subR3R2 f (matMul a b) := by
  ext <;>
    simp [matMul, subR3R2, transpose, from_col_vectors, Vec3.dot, Vec3.smul_def,
      Vec3.sub_def, Vec3.add_def, Vec3.neg_def] <;> ring

/-- Row subtraction commutes with right multiplication. -/
theorem matMul_subR1R3 (f : ℚ) (a b : Mat3x3) :
    matMul (subR1R3 f a) b = subR1R3 f (matMul a b) := by
  ext <;>
    simp [matMul, subR1R3, transpose, from_col_vectors, Vec3.dot, Vec3.smul_def,
      Vec3.sub_def, Vec3.add_def, Vec3.neg_def] <;> ring

/-- Row subtraction commutes with right multiplication. -/
theorem matMul_subR2R3 (f : ℚ) (a b : Mat3x3) :
    matMul (subR2R3 f a) b = subR2R3 f (matMul a b) := by
  ext <;>
    simp [matMul, subR2R3, transpose, from_col_vectors, Vec3.dot, Vec3.smul_def,
      Vec3.sub_def, Vec3.add_def, Vec3.neg_def] <;> ring

/-- det3 under a row swap. -/
theorem det3_swap12 (m : Mat3x3) : det3 (swap12 m) = -det3 m := by
  simp only [det3, swap12]
  ring

/-- det3 under a row swap. -/
theorem det3_swap13 (m : Mat3x3) : det3 (swap13 m) = -det3 m := by
  simp only [det3, swap13]
  ring

/-- det3 under a row swap. -/
theorem det3_swap23 (m : Mat3x3) : det3 (swap23 m) = -det3 m := by
  simp only [det3, swap23]
  ring

/-- det3 under a row scale. -/
theorem det3_scaleRow1 (c : ℚ) (m : Mat3x3) : det3 (scaleRow1 c m) = c * det3 m := by
  simp only [det3, scaleRow1, Vec3.smul_def]
  ring

/-- det3 under a row scale. -/
theorem det3_scaleRow2 (c : ℚ) (m : Mat3x3) : det3 (scaleRow2 c m) = c * det3 m := by
  simp only [det3, scaleRow2, Vec3.smul_def]
  ring

/-- det3 under a row scale. -/
theorem det3_scaleRow3 (c : ℚ) (m : Mat3x3) : det3 (scaleRow3 c m) = c * det3 m := by
  simp only [det3, scaleRow3, Vec3.smul_def]
  ring

/-- det3 is unchanged by a row subtraction. -/
theorem det3_subR2R1 (f : ℚ) (m : Mat3x3) : det3 (subR2R1 f m) = det3 m := by
  simp only [det3, subR2R1, Vec3.smul_def, Vec3.sub_def, Vec3.add_def, Vec3.neg_def]
  ring

/-- det3 is unchanged by a row subtraction. -/
theorem det3_subR3R1 (f : ℚ) (m : Mat3x3) : det3 (subR3R1 f m) = det3 m := by
  simp only [det3, subR3R1, Vec3.smul_def, Vec3.sub_def, Vec3.add_def, Vec3.neg_def]
  ring

/-- det3 is unchanged by a row subtraction. -/
theorem det3_subR1R2 (f : ℚ) (m : Mat3x3) : det3 (subR1R2 f m) = det3 m := by
  simp only [det3, subR1R2, Vec3.smul_def, Vec3.sub_def, Vec3.add_def, Vec3.neg_def]
  ring

/-- det3 is unchanged by a row subtraction. -/
theorem det3_subR3R2 (f : ℚ) (m : Mat3x3) : det3 (subR3R2 f m) = det3 m := by
  simp only [det3, subR3R2, Vec3.smul_def, Vec3.sub_def, Vec3.add_def, Vec3.neg_def]
  ring

/-- det3 is unchanged by a row subtraction. -/
theorem det3_subR1R3 (f : ℚ) (m : Mat3x3) : det3 (subR1R3 f m) = det3 m := by
  simp only [det3, subR1R3, Vec3.smul_def, Vec3.sub_def, Vec3.add_def, Vec3.neg_def]
  ring

/-- det3 is unchanged by a row subtraction. -/
theorem det3_subR2R3 (f : ℚ) (m : Mat3x3) : det3 (subR2R3 f m) = det3 m := by
  simp only [det3, subR2R3, Vec3.smul_def, Vec3.sub_def, Vec3.add_def, Vec3.neg_def]
  ring

/-- gj_elim0 fails exactly on a zero pivot. -/
theorem gj_elim0_none_iff (p : Mat3x3 × Mat3x3) :
    gj_elim0 p = none ↔ p.1.row1.x = 0 := by
  unfold gj_elim0
  split_ifs with h <;> simp [h]

/-- gj_elim0 on a nonzero pivot: scale row 1 by the pivot reciprocal,
then clear column 0 of rows 2 and 3 (factors read off the self side). -/
theorem gj_elim0_some (p : Mat3x3 × Mat3x3) (h : p.1.row1.x ≠ 0) :
    gj_elim0 p = some
      (Mat3x3.subR3R1 p.1.row3.x (Mat3x3.subR2R1 p.1.row2.x
        (Mat3x3.scaleRow1 p.1.row1.x⁻¹ p.1)),
       Mat3x3.subR3R1 p.1.row3.x (Mat3x3.subR2R1 p.1.row2.x
        (Mat3x3.scaleRow1 p.1.row1.x⁻¹ p.2))) := by
  unfold gj_elim0
  rw [if_neg h]
  rfl

/-- The elimination of iteration 0 keeps inverse * A = self. -/
theorem elim0_invariant (A s v : Mat3x3) (hinv : Mat3x3.matMul v A = s) :
    Mat3x3.matMul (Mat3x3.subR3R1 s.row3.x (Mat3x3.subR2R1 s.row2.x
        (Mat3x3.scaleRow1 s.row1.x⁻¹ v))) A =
      Mat3x3.subR3R1 s.row3.x (Mat3x3.subR2R1 s.row2.x
        (Mat3x3.scaleRow1 s.row1.x⁻¹ s)) := by
  rw [Mat3x3.matMul_subR3R1, Mat3x3.matMul_subR2R1, Mat3x3.matMul_scaleRow1, hinv]

/-- After iteration 0, column 0 of self is the first unit column. -/
theorem elim0_cols (s : Mat3x3) (hp : s.row1.x ≠ 0) :
    (Mat3x3.subR3R1 s.row3.x (Mat3x3.subR2R1 s.row2.x
        (Mat3x3.scaleRow1 s.row1.x⁻¹ s))).row1.x = 1 ∧
    (Mat3x3.subR3R1 s.row3.x (Mat3x3.subR2R1 s.row2.x
        (Mat3x3.scaleRow1 s.row1.x⁻¹ s))).row2.x = 0 ∧
    (Mat3x3.subR3R1 s.row3.x (Mat3x3.subR2R1 s.row2.x
        (Mat3x3.scaleRow1 s.row1.x⁻¹ s))).row3.x = 0 := by
  refine ⟨?_, ?_, ?_⟩ <;>
    simp only [Mat3x3.subR3R1, Mat3x3.subR2R1, Mat3x3.scaleRow1, Vec3.smul_def,
      Vec3.sub_def, Vec3.add_def, Vec3.neg_def] <;>
    field_simp

/-- The elimination of iteration 0 keeps the inverse side regular. -/
theorem elim0_det (s v : Mat3x3) (hdet : Mat3x3.det3 v ≠ 0) (hp : s.row1.x ≠ 0) :
    Mat3x3.det3 (Mat3x3.subR3R1 s.row3.x (Mat3x3.subR2R1 s.row2.x
      (Mat3x3.scaleRow1 s.row1.x⁻¹ v))) ≠ 0 := by
  rw [Mat3x3.det3_subR3R1, Mat3x3.det3_subR2R1, Mat3x3.det3_scaleRow1]
  exact mul_ne_zero (inv_ne_zero hp) hdet

/-- A successful iteration 0 preserves the invariant and produces the
first unit column. -/
theorem gj_step0_spec (A : Mat3x3) (p q : Mat3x3 × Mat3x3)
    (h : gj_step0 p = some q) (hinv : Mat3x3.matMul p.2 A = p.1)
    (hdet : Mat3x3.det3 p.2 ≠ 0) :
    Mat3x3.matMul q.2 A = q.1 ∧ Mat3x3.det3 q.2 ≠ 0 ∧
    q.1.row1.x = 1 ∧ q.1.row2.x = 0 ∧ q.1.row3.x = 0 := by
  unfold gj_step0 at h
  by_cases h1 : p.1.row1.x = 0
  · rw [if_pos h1] at h
    by_cases h2 : p.1.row2.x ≠ 0
    · rw [if_pos h2, gj_elim0_some _ h2] at h
      obtain rfl := Option.some.inj h
      have hinv2 : Mat3x3.matMul (Mat3x3.swap12 p.2) A = Mat3x3.swap12 p.1 := by
        rw [Mat3x3.matMul_swap12, hinv]
      have hdet2 : Mat3x3.det3 (Mat3x3.swap12 p.2) ≠ 0 := by
        rw [Mat3x3.det3_swap12]
        exact neg_ne_zero.mpr hdet
      obtain ⟨c1, c2, c3⟩ := elim0_cols (Mat3x3.swap12 p.1) h2
      exact ⟨elim0_invariant A (Mat3x3.swap12 p.1) (Mat3x3.swap12 p.2) hinv2,
        elim0_det (Mat3x3.swap12 p.1) (Mat3x3.swap12 p.2) hdet2 h2, c1, c2, c3⟩
    · rw [if_neg h2] at h
      push_neg at h2
      by_cases h3 : p.1.row3.x ≠ 0
      · rw [if_pos h3, gj_elim0_some _ h3] at h
        obtain rfl := Option.some.inj h
        have hinv2 : Mat3x3.matMul (Mat3x3.swap13 p.2) A = Mat3x3.swap13 p.1 := by
          rw [Mat3x3.matMul_swap13, hinv]
        have hdet2 : Mat3x3.det3 (Mat3x3.swap13 p.2) ≠ 0 := by
          rw [Mat3x3.det3_swap13]
          exact neg_ne_zero.mpr hdet
        obtain ⟨c1, c2, c3⟩ := elim0_cols (Mat3x3.swap13 p.1) h3
        exact ⟨elim0_invariant A (Mat3x3.swap13 p.1) (Mat3x3.swap13 p.2) hinv2,
          elim0_det (Mat3x3.swap13 p.1) (Mat3x3.swap13 p.2) hdet2 h3, c1, c2, c3⟩
      · rw [if_neg h3, (gj_elim0_none_iff p).mpr h1] at h
        exact Option.noConfusion h
  · rw [if_neg h1, gj_elim0_some p h1] at h
    obtain rfl := Option.some.inj h
    obtain ⟨c1, c2, c3⟩ := elim0_cols p.1 h1
    exact ⟨elim0_invariant A p.1 p.2 hinv, elim0_det p.1 p.2 hdet h1, c1, c2, c3⟩

/-- A failed iteration 0 means column 0 had no nonzero entry. -/
theorem gj_step0_none (p : Mat3x3 × Mat3x3) (h : gj_step0 p = none) :
    p.1.row1.x = 0 ∧ p.1.row2.x = 0 ∧ p.1.row3.x = 0 := by
  unfold gj_step0 at h
  by_cases h1 : p.1.row1.x = 0
  · rw [if_pos h1] at h
    by_cases h2 : p.1.row2.x ≠ 0
    · rw [if_pos h2, gj_elim0_some _ h2] at h
      exact Option.noConfusion h
    · rw [if_neg h2] at h
      push_neg at h2
      by_cases h3 : p.1.row3.x ≠ 0
      · rw [if_pos h3, gj_elim0_some _ h3] at h
        exact Option.noConfusion h
      · push_neg at h3
        exact ⟨h1, h2, h3⟩
  · rw [if_neg h1, gj_elim0_some p h1] at h
    exact Option.noConfusion h

/-- gj_elim1 fails exactly on a zero pivot. -/
theorem gj_elim1_none_iff (p : Mat3x3 × Mat3x3) :
    gj_elim1 p = none ↔ p.1.row2.y = 0 := by
  unfold gj_elim1
  split_ifs with h <;> simp [h]

/-- gj_elim1 on a nonzero pivot. -/
theorem gj_elim1_some (p : Mat3x3 × Mat3x3) (h : p.1.row2.y ≠ 0) :
    gj_elim1 p = some
      (Mat3x3.subR3R2 p.1.row3.y (Mat3x3.subR1R2 p.1.row1.y
        (Mat3x3.scaleRow2 p.1.row2.y⁻¹ p.1)),
       Mat3x3.subR3R2 p.1.row3.y (Mat3x3.subR1R2 p.1.row1.y
        (Mat3x3.scaleRow2 p.1.row2.y⁻¹ p.2))) := by
  unfold gj_elim1
  rw [if_neg h]
  rfl

/-- The elimination of iteration 1 keeps inverse * A = self. -/
theorem elim1_invariant (A s v : Mat3x3) (hinv : Mat3x3.matMul v A = s) :
    Mat3x3.matMul (Mat3x3.subR3R2 s.row3.y (Mat3x3.subR1R2 s.row1.y
        (Mat3x3.scaleRow2 s.row2.y⁻¹ v))) A =
      Mat3x3.subR3R2 s.row3.y (Mat3x3.subR1R2 s.row1.y
        (Mat3x3.scaleRow2 s.row2.y⁻¹ s)) := by
  rw [Mat3x3.matMul_subR3R2, Mat3x3.matMul_subR1R2, Mat3x3.matMul_scaleRow2, hinv]

/-- After iteration 1, columns 0 and 1 of self are unit columns. -/
theorem elim1_cols (s : Mat3x3) (hp : s.row2.y ≠ 0)
    (hx1 : s.row1.x = 1) (hx2 : s.row2.x = 0) (hx3 : s.row3.x = 0) :
    (Mat3x3.subR3R2 s.row3.y (Mat3x3.subR1R2 s.row1.y
        (Mat3x3.scaleRow2 s.row2.y⁻¹ s))).row1.x = 1 ∧
    (Mat3x3.subR3R2 s.row3.y (Mat3x3.subR1R2 s.row1.y
        (Mat3x3.scaleRow2 s.row2.y⁻¹ s))).row2.x = 0 ∧
    (Mat3x3.subR3R2 s.row3.y (Mat3x3.subR1R2 s.row1.y
        (Mat3x3.scaleRow2 s.row2.y⁻¹ s))).row3.x = 0 ∧
    (Mat3x3.subR3R2 s.row3.y (Mat3x3.subR1R2 s.row1.y
        (Mat3x3.scaleRow2 s.row2.y⁻¹ s))).row1.y = 0 ∧
    (Mat3x3.subR3R2 s.row3.y (Mat3x3.subR1R2 s.row1.y
        (Mat3x3.scaleRow2 s.row2.y⁻¹ s))).row2.y = 1 ∧
    (Mat3x3.subR3R2 s.row3.y (Mat3x3.subR1R2 s.row1.y
        (Mat3x3.scaleRow2 s.row2.y⁻¹ s))).row3.y = 0 := by
  refine ⟨?_, ?_, ?_, ?_, ?_, ?_⟩ <;>
    simp only [Mat3x3.subR3R2, Mat3x3.subR1R2, Mat3x3.scaleRow2, Vec3.smul_def,
      Vec3.sub_def, Vec3.add_def, Vec3.neg_def, hx1, hx2, hx3] <;>
    field_simp

/-- The elimination of iteration 1 keeps the inverse side regular. -/
theorem elim1_det (s v : Mat3x3) (hdet : Mat3x3.det3 v ≠ 0) (hp : s.row2.y ≠ 0) :
    Mat3x3.det3 (Mat3x3.subR3R2 s.row3.y (Mat3x3.subR1R2 s.row1.y
      (Mat3x3.scaleRow2 s.row2.y⁻¹ v))) ≠ 0 := by
  rw [Mat3x3.det3_subR3R2, Mat3x3.det3_subR1R2, Mat3x3.det3_scaleRow2]
  exact mul_ne_zero (inv_ne_zero hp) hdet

/-- A successful iteration 1 preserves the invariant and the unit
column 0, and produces the second unit column. -/
theorem gj_step1_spec (A : Mat3x3) (p q : Mat3x3 × Mat3x3)
    (h : gj_step1 p = some q) (hinv : Mat3x3.matMul p.2 A = p.1)
    (hdet : Mat3x3.det3 p.2 ≠ 0)
    (hx1 : p.1.row1.x = 1) (hx2 : p.1.row2.x = 0) (hx3 : p.1.row3.x = 0) :
    Mat3x3.matMul q.2 A = q.1 ∧ Mat3x3.det3 q.2 ≠ 0 ∧
    q.1.row1.x = 1 ∧ q.1.row2.x = 0 ∧ q.1.row3.x = 0 ∧
    q.1.row1.y = 0 ∧ q.1.row2.y = 1 ∧ q.1.row3.y = 0 := by
  unfold gj_step1 at h
  by_cases h1 : p.1.row2.y = 0
  · rw [if_pos h1] at h
    by_cases h2 : p.1.row3.y ≠ 0
    · rw [if_pos h2, gj_elim1_some _ h2] at h
      obtain rfl := Option.some.inj h
      have hinv2 : Mat3x3.matMul (Mat3x3.swap23 p.2) A = Mat3x3.swap23 p.1 := by
        rw [Mat3x3.matMul_swap23, hinv]
      have hdet2 : Mat3x3.det3 (Mat3x3.swap23 p.2) ≠ 0 := by
        rw [Mat3x3.det3_swap23]
        exact neg_ne_zero.mpr hdet
      obtain ⟨c1, c2, c3, c4, c5, c6⟩ := elim1_cols (Mat3x3.swap23 p.1) h2 hx1 hx3 hx2
      exact ⟨elim1_invariant A (Mat3x3.swap23 p.1) (Mat3x3.swap23 p.2) hinv2,
        elim1_det (Mat3x3.swap23 p.1) (Mat3x3.swap23 p.2) hdet2 h2, c1, c2, c3, c4, c5, c6⟩
    · rw [if_neg h2, (gj_elim1_none_iff p).mpr h1] at h
      exact Option.noConfusion h
  · rw [if_neg h1, gj_elim1_some p h1] at h
    obtain rfl := Option.some.inj h
    obtain ⟨c1, c2, c3, c4, c5, c6⟩ := elim1_cols p.1 h1 hx1 hx2 hx3
    exact ⟨elim1_invariant A p.1 p.2 hinv, elim1_det p.1 p.2 hdet h1, c1, c2, c3, c4, c5, c6⟩

/-- A failed iteration 1 means column 1 had no usable pivot. -/
theorem gj_step1_none (p : Mat3x3 × Mat3x3) (h : gj_step1 p = none) :
    p.1.row2.y = 0 ∧ p.1.row3.y = 0 := by
  unfold gj_step1 at h
  by_cases h1 : p.1.row2.y = 0
  · rw [if_pos h1] at h
    by_cases h2 : p.1.row3.y ≠ 0
    · rw [if_pos h2, gj_elim1_some _ h2] at h
      exact Option.noConfusion h
    · push_neg at h2
      exact ⟨h1, h2⟩
  · rw [if_neg h1, gj_elim1_some p h1] at h
    exact Option.noConfusion h

/-- gj_step2 fails only on a zero pivot. -/
theorem gj_step2_none (p : Mat3x3 × Mat3x3) (h : gj_step2 p = none) :
    p.1.row3.z = 0 := by
  unfold gj_step2 at h
  by_cases h1 : p.1.row3.z = 0
  · exact h1
  · rw [if_neg h1] at h
    exact Option.noConfusion h

/-- gj_step2 on a nonzero pivot. -/
theorem gj_step2_some (p : Mat3x3 × Mat3x3) (h : p.1.row3.z ≠ 0) :
    gj_step2 p = some
      (Mat3x3.subR2R3 p.1.row2.z (Mat3x3.subR1R3 p.1.row1.z
        (Mat3x3.scaleRow3 p.1.row3.z⁻¹ p.1)),
       Mat3x3.subR2R3 p.1.row2.z (Mat3x3.subR1R3 p.1.row1.z
        (Mat3x3.scaleRow3 p.1.row3.z⁻¹ p.2))) := by
  unfold gj_step2
  rw [if_neg h]
  rfl

/-- The elimination of iteration 2 keeps inverse * A = self. -/
theorem elim2_invariant (A s v : Mat3x3) (hinv : Mat3x3.matMul v A = s) :
    Mat3x3.matMul (Mat3x3.subR2R3 s.row2.z (Mat3x3.subR1R3 s.row1.z
        (Mat3x3.scaleRow3 s.row3.z⁻¹ v))) A =
      Mat3x3.subR2R3 s.row2.z (Mat3x3.subR1R3 s.row1.z
        (Mat3x3.scaleRow3 s.row3.z⁻¹ s)) := by
  rw [Mat3x3.matMul_subR2R3, Mat3x3.matMul_subR1R3, Mat3x3.matMul_scaleRow3, hinv]

/-- When columns 0 and 1 are already unit columns and the last pivot is
nonzero, iteration 2 turns self into the identity. -/
theorem elim2_identity (s : Mat3x3) (hp : s.row3.z ≠ 0)
    (hx1 : s.row1.x = 1) (hx2 : s.row2.x = 0) (hx3 : s.row3.x = 0)
    (hy1 : s.row1.y = 0) (hy2 : s.row2.y = 1) (hy3 : s.row3.y = 0) :
    Mat3x3.subR2R3 s.row2.z (Mat3x3.subR1R3 s.row1.z
      (Mat3x3.scaleRow3 s.row3.z⁻¹ s)) = Mat3x3.identity := by
  ext <;>
    simp only [Mat3x3.subR2R3, Mat3x3.subR1R3, Mat3x3.scaleRow3, Mat3x3.identity,
      Mat3x3.from_col_vectors, Vec3.smul_def, Vec3.sub_def, Vec3.add_def, Vec3.neg_def,
      hx1, hx2, hx3, hy1, hy2, hy3] <;>
    field_simp

/-- The pre-block of Mat3x3::inverse fails only when column 0 is zero. -/
theorem gj_pre_none (m : Mat3x3) (h : gj_pre m = none) :
    m.row1.x = 0 ∧ m.row2.x = 0 ∧ m.row3.x = 0 := by
  unfold gj_pre at h
  by_cases h1 : m.row1.x = 0
  · rw [if_pos h1] at h
    by_cases h2 : m.row2.x ≠ 0
    · rw [if_pos h2] at h
      exact Option.noConfusion h
    · rw [if_neg h2] at h
      push_neg at h2
      by_cases h3 : m.row3.x ≠ 0
      · rw [if_pos h3] at h
        exact Option.noConfusion h
      · push_neg at h3
        exact ⟨h1, h2, h3⟩
  · rw [if_neg h1] at h
    exact Option.noConfusion h

/-- A successful pre-block yields a pair satisfying the invariant. -/
theorem gj_pre_some (m : Mat3x3) (p : Mat3x3 × Mat3x3) (h : gj_pre m = some p) :
    Mat3x3.matMul p.2 m = p.1 ∧ Mat3x3.det3 p.2 ≠ 0 := by
  unfold gj_pre at h
  by_cases h1 : m.row1.x = 0
  · rw [if_pos h1] at h
    by_cases h2 : m.row2.x ≠ 0
    · rw [if_pos h2] at h
      obtain rfl := Option.some.inj h
      constructor
      · rw [Mat3x3.matMul_swap12, Mat3x3.matMul_identity_left]
      · rw [Mat3x3.det3_swap12, Mat3x3.det3_identity]
        norm_num
    · rw [if_neg h2] at h
      by_cases h3 : m.row3.x ≠ 0
      · rw [if_pos h3] at h
        obtain rfl := Option.some.inj h
        constructor
        · rw [Mat3x3.matMul_swap13, Mat3x3.matMul_identity_left]
        · rw [Mat3x3.det3_swap13, Mat3x3.det3_identity]
          norm_num
      · rw [if_neg h3] at h
        exact Option.noConfusion h
  · rw [if_neg h1] at h
    obtain rfl := Option.some.inj h
    refine ⟨Mat3x3.matMul_identity_left m, ?_⟩
    rw [Mat3x3.det3_identity]
    norm_num

/-- A matrix whose first column is zero is singular. -/
theorem det3_of_col0_zero (m : Mat3x3) (h1 : m.row1.x = 0) (h2 : m.row2.x = 0)
    (h3 : m.row3.x = 0) : Mat3x3.det3 m = 0 := by
  simp only [Mat3x3.det3, h1, h2, h3]
  ring

/-- A matrix with zeros in rows 2 and 3 of columns 0 and 1 is singular. -/
theorem det3_of_lower_cols_zero (m : Mat3x3) (h2x : m.row2.x = 0) (h3x : m.row3.x = 0)
    (h2y : m.row2.y = 0) (h3y : m.row3.y = 0) : Mat3x3.det3 m = 0 := by
  simp only [Mat3x3.det3, h2x, h3x, h2y, h3y]
  ring

/-- A matrix whose last row is zero is singular. -/
theorem det3_of_row3_zero (m : Mat3x3) (h1 : m.row3.x = 0) (h2 : m.row3.y = 0)
    (h3 : m.row3.z = 0) : Mat3x3.det3 m = 0 := by
  simp only [Mat3x3.det3, h1, h2, h3]
  ring

/-- From the invariant, a singular self stage forces a singular input. -/
theorem det3_input_zero (A : Mat3x3) (p : Mat3x3 × Mat3x3)
    (hinv : Mat3x3.matMul p.2 A = p.1) (hdet : Mat3x3.det3 p.2 ≠ 0)
    (hs : Mat3x3.det3 p.1 = 0) : Mat3x3.det3 A = 0 := by
  have h := Mat3x3.det3_matMul p.2 A
  rw [hinv, hs] at h
  rcases mul_eq_zero.mp h.symm with h2 | h2
  · exact absurd h2 hdet
  · exact h2

end Mat3x3

/-- Claim C4: over exact arithmetic, Mat3x3::inverse returns some N
only when M * N is the identity matrix (stated through the Mathlib
matrix embedding), and returns none exactly when the Gauss-Jordan
elimination finds no nonzero pivot in some column, which happens
exactly when M is singular (det3 M = 0). -/
theorem c4_inverse_correct (m : Mat3x3) :
    (∀ n, m.inverse = some n → Mat3x3.toMatrix m * Mat3x3.toMatrix n = 1) ∧
    (m.inverse = none ↔ Mat3x3.det3 m = 0) := by
  rcases hpre : Mat3x3.gj_pre m with _ | p0
  · have hz := Mat3x3.gj_pre_none m hpre
    have hdm : Mat3x3.det3 m = 0 := Mat3x3.det3_of_col0_zero m hz.1 hz.2.1 hz.2.2
    have hnone : m.inverse = none := by simp [Mat3x3.inverse, hpre]
    refine ⟨fun n hn => ?_, ⟨fun _ => hdm, fun _ => hnone⟩⟩
    rw [hnone] at hn
    exact Option.noConfusion hn
  · obtain ⟨hinv0, hdet0⟩ := Mat3x3.gj_pre_some m p0 hpre
    rcases h0 : Mat3x3.gj_step0 p0 with _ | p1
    · obtain ⟨z1, z2, z3⟩ := Mat3x3.gj_step0_none p0 h0
      have hdm : Mat3x3.det3 m = 0 := Mat3x3.det3_input_zero m p0 hinv0 hdet0
        (Mat3x3.det3_of_col0_zero p0.1 z1 z2 z3)
      have hnone : m.inverse = none := by simp [Mat3x3.inverse, hpre, h0]
      refine ⟨fun n hn => ?_, ⟨fun _ => hdm, fun _ => hnone⟩⟩
      rw [hnone] at hn
      exact Option.noConfusion hn
    · obtain ⟨hinv1, hdet1, e1, e2, e3⟩ := Mat3x3.gj_step0_spec m p0 p1 h0 hinv0 hdet0
      rcases h1 : Mat3x3.gj_step1 p1 with _ | p2
      · obtain ⟨z2, z3⟩ := Mat3x3.gj_step1_none p1 h1
        have hdm : Mat3x3.det3 m = 0 := Mat3x3.det3_input_zero m p1 hinv1 hdet1
          (Mat3x3.det3_of_lower_cols_zero p1.1 e2 e3 z2 z3)
        have hnone : m.inverse = none := by simp [Mat3x3.inverse, hpre, h0, h1]
        refine ⟨fun n hn => ?_, ⟨fun _ => hdm, fun _ => hnone⟩⟩
        rw [hnone] at hn
        exact Option.noConfusion hn
      · obtain ⟨hinv2, hdet2, f1, f2, f3, f4, f5, f6⟩ :=
          Mat3x3.gj_step1_spec m p1 p2 h1 hinv1 hdet1 e1 e2 e3
        rcases h2 : Mat3x3.gj_step2 p2 with _ | p3
        · have z := Mat3x3.gj_step2_none p2 h2
          have hdm : Mat3x3.det3 m = 0 := Mat3x3.det3_input_zero m p2 hinv2 hdet2
            (Mat3x3.det3_of_row3_zero p2.1 f3 f6 z)
          have hnone : m.inverse = none := by simp [Mat3x3.inverse, hpre, h0, h1, h2]
          refine ⟨fun n hn => ?_, ⟨fun _ => hdm, fun _ => hnone⟩⟩
          rw [hnone] at hn
          exact Option.noConfusion hn
        · have hpz : p2.1.row3.z ≠ 0 := by
            intro hcz
            rw [show Mat3x3.gj_step2 p2 = none from by
              unfold Mat3x3.gj_step2; rw [if_pos hcz]] at h2
            exact Option.noConfusion h2
          rw [Mat3x3.gj_step2_some p2 hpz] at h2
          obtain rfl := Option.some.inj h2
          have hid := Mat3x3.elim2_identity p2.1 hpz f1 f2 f3 f4 f5 f6
          have hinv3 := Mat3x3.elim2_invariant m p2.1 p2.2 hinv2
          rw [hid] at hinv3
          have hNM : Mat3x3.toMatrix (Mat3x3.subR2R3 p2.1.row2.z
              (Mat3x3.subR1R3 p2.1.row1.z (Mat3x3.scaleRow3 p2.1.row3.z⁻¹ p2.2))) *
              Mat3x3.toMatrix m = 1 := by
            have hc := congrArg Mat3x3.toMatrix hinv3
            rwa [Mat3x3.toMatrix_matMul, Mat3x3.toMatrix_identity] at hc
          have hMN := Matrix.mul_eq_one_comm.mp hNM
          have hsome : m.inverse = some (Mat3x3.subR2R3 p2.1.row2.z
              (Mat3x3.subR1R3 p2.1.row1.z (Mat3x3.scaleRow3 p2.1.row3.z⁻¹ p2.2))) := by
            simp [Mat3x3.inverse, hpre, h0, h1, Mat3x3.gj_step2_some p2 hpz]
          constructor
          · intro n hn
            rw [hsome] at hn
            obtain rfl := Option.some.inj hn
            exact hMN
          · constructor
            · intro hcon
              rw [hsome] at hcon
              exact Option.noConfusion hcon
            · intro hdm
              exfalso
              have hd := congrArg Matrix.det hMN
              rw [Matrix.det_mul, Matrix.det_one, Mat3x3.det3_eq_det m, hdm] at hd
              rw [zero_mul] at hd
              exact absurd hd (by norm_num)

/-- Claim C9 as amended: Lambertian::reflect returns normalize(u2 + n)
where u2 is the hemisphere-flipped sample uniform_relfection(u, n) (the
raw sample negated exactly when its dot product with the normal is
sign-negative), and that flipped sample satisfies u2 . n ≥ 0. -/
theorem c9_lambertian_flipped_sample (sq : ℚ → ℚ) (unit normal : Vec3) :
    0 ≤ (uniform_relfection unit normal).dot normal ∧
    lambertian_reflect sq unit normal = (uniform_relfection unit normal + normal).normalize sq ∧
    uniform_relfection unit normal =
      (if unit.dot normal < 0 then -unit else unit) := by
  refine ⟨?_, rfl, rfl⟩
  unfold uniform_relfection
  split_ifs with h
  · have : (-unit).dot normal = -(unit.dot normal) := by
      simp [Vec3.dot, Vec3.neg_def]
      ring
    rw [this]
    linarith
  · linarith

end Raze
